import Mathlib

/-!
Verification development for the research-assistant repository.

The Python modules under `backend/services` and `backend/api` are shallowly
embedded as executable Lean definitions: strings are `List Char` / `String`,
Python floats are modelled as `ℚ` (none of the verified properties depends on
binary rounding), fallible code returns `Option`/`Except`, and external
capabilities (web fetch, AI completion, embedding provider, database) are
oracle parameters.  Every definition is translated from the corresponding
source function; deviations forced by the host language (Python `set`
iteration order, unicode classes) are noted where they occur.
-/

namespace ResearchAssistant

/-! ## Character and string primitives shared by the embedded modules -/

/-- Python regex `\s` / `str.strip()` whitespace, restricted to the ASCII
whitespace characters (space, tab, newline, carriage return, vertical tab,
form feed).  The source operates on scraped web text; non-ASCII unicode
whitespace is outside the model. -/
def isWs (c : Char) : Bool :=
  c == ' ' || c == '\t' || c == '\n' || c == '\r' ||
    c == Char.ofNat 11 || c == Char.ofNat 12

/-- Model of `re.sub(r'\s+', ' ', text)`: every maximal run of whitespace
characters is replaced by a single space. -/
def collapseWs : List Char → List Char
  | [] => []
  | [c] => if isWs c then [' '] else [c]
  | a :: b :: t =>
    if isWs a then
      (if isWs b then collapseWs (b :: t) else ' ' :: collapseWs (b :: t))
    else a :: collapseWs (b :: t)

/-- Case folding used for `re.IGNORECASE` matching (ASCII letters only, which
covers every character of the denylist patterns). -/
def low (ci : Bool) (c : Char) : Char := if ci then c.toLower else c

/-- Does the pattern `pat` match at the head of `l` (case-insensitively when
`ci` is set)? -/
def patHere (ci : Bool) (pat l : List Char) : Bool :=
  (l.take pat.length).map (low ci) == pat.map (low ci)

/-- Left-to-right, non-overlapping substitution of the literal `pat` by `rep`,
as performed by Python `re.sub` on a literal pattern and by `str.replace`.
The fuel argument is instantiated with the length of the scanned list. -/
def substAux (ci : Bool) (pat rep : List Char) : Nat → List Char → List Char
  | _, [] => []
  | 0, l => l
  | f + 1, c :: t =>
    if patHere ci pat (c :: t) then
      rep ++ substAux ci pat rep f ((c :: t).drop pat.length)
    else
      c :: substAux ci pat rep f t

/-- Replace every (left-to-right, non-overlapping) occurrence of the literal
`pat` by `rep`. -/
def subst (ci : Bool) (pat rep : List Char) (l : List Char) : List Char :=
  substAux ci pat rep l.length l

/-- Model of Python `str.replace` with a single-character pattern, which is a
character-wise map. -/
def replaceChar (a b : Char) (l : List Char) : List Char :=
  l.map fun c => if c == a then b else c

def isDigitCh (c : Char) : Bool := '0' ≤ c && c ≤ '9'

/-- Model of `re.sub(r'© \d{4}', '', text)`: remove the copyright sign
followed by a space and (the first) four digits. -/
def removeCopyrightAux : Nat → List Char → List Char
  | _, [] => []
  | 0, l => l
  | f + 1, c :: t =>
    if c == '©' then
      match t with
      | sp :: d1 :: d2 :: d3 :: d4 :: rest =>
        if sp == ' ' && isDigitCh d1 && isDigitCh d2 && isDigitCh d3 && isDigitCh d4 then
          removeCopyrightAux f rest
        else c :: removeCopyrightAux f t
      | _ => c :: removeCopyrightAux f t
    else c :: removeCopyrightAux f t

def removeCopyright (l : List Char) : List Char := removeCopyrightAux l.length l

/-- The literal denylist patterns applied before the `© \d{4}` pattern, in
source order. -/
def unwantedPats1 : List (List Char) :=
  ["Cookie Policy", "Privacy Policy", "Terms of Service", "Subscribe",
   "Newsletter", "Follow us", "Share this", "Related articles",
   "Advertisement", "Advertise"].map String.data

/-- The literal denylist patterns applied after the `© \d{4}` pattern, in
source order (`Loading\.\.\.` and `Please wait\.\.\.` have escaped dots, so
they are literal). -/
def unwantedPats2 : List (List Char) :=
  ["All rights reserved", "Loading...", "Please wait...",
   "JavaScript is required", "Enable JavaScript"].map String.data

/-- Sequential case-insensitive removal of all sixteen boilerplate patterns of
`_clean_text`, in source order. -/
def removeUnwanted (l : List Char) : List Char :=
  unwantedPats2.foldl (fun acc p => subst true p [] acc)
    (removeCopyright (unwantedPats1.foldl (fun acc p => subst true p [] acc) l))

/-- The quote-normalization line of `_clean_text` as it actually reads in the
source file: both arguments of the double-quote replaces are the ASCII double
quote (the curly quotes were lost in the source), so the line performs two
identity substitutions. -/
def dqSubst (l : List Char) : List Char :=
  subst false ['"'] ['"'] (subst false ['"'] ['"'] l)

/-- The argument of the single-quote replace line as Python parses it: the
`'''` delimiters turn the line into one `replace` call whose pattern is this
fourteen-character literal. -/
def weirdLit : List Char := (", \"'\").replace(" : String).data

/-- The single-quote line of `_clean_text` as Python parses it: replace the
stray literal `weirdLit` by an ASCII apostrophe. -/
def weirdSubst (l : List Char) : List Char := subst false weirdLit ['\''] l

/-- Dash normalization: `replace('–', '-')` then `replace('—', '-')` (en dash
and em dash to hyphen). -/
def normalizeDashes (l : List Char) : List Char :=
  replaceChar '—' '-' (replaceChar '–' '-' l)

/-- Membership in the character class `[.!?]` (sentence-final punctuation). -/
def isP1 (c : Char) : Bool := c == '.' || c == '!' || c == '?'

/-- Membership in the character class `[,;]`. -/
def isP2 (c : Char) : Bool := c == ',' || c == ';'

/-- Worker for `collapseRuns`: when the flag is set we are inside a run that
has already been replaced by `rep` and keep skipping its characters. -/
def collapseRunsAux (p : Char → Bool) (rep : Char) : Bool → List Char → List Char
  | _, [] => []
  | true, c :: t =>
    if p c then collapseRunsAux p rep true t else c :: collapseRunsAux p rep false t
  | false, c :: t =>
    match t with
    | [] => [c]
    | d :: _ =>
      if p c && p d then rep :: collapseRunsAux p rep true t
      else c :: collapseRunsAux p rep false t

/-- Model of `re.sub(r'[X]{2,}', rep, text)`: every maximal run of two or more
characters of the class `p` is replaced by the single character `rep`;
isolated class characters are kept. -/
def collapseRuns (p : Char → Bool) (rep : Char) (l : List Char) : List Char :=
  collapseRunsAux p rep false l

/-- Model of `re.sub(r'\n\s*\n\s*\n+', '\n\n', text)`: a whitespace run that
starts at a newline and contains at least three newlines is replaced (up to
its last newline) by a blank-line separator.  At its place in the
`_clean_text` pipeline the input never contains a newline (whitespace has
already been collapsed to single spaces), so this step is the identity there;
see `paraCollapse_eq_of_noNl`. -/
def paraCollapseAux : Nat → List Char → List Char
  | _, [] => []
  | 0, l => l
  | f + 1, c :: t =>
    if c == '\n' then
      let run := (c :: t).takeWhile isWs
      if 3 ≤ run.count '\n' then
        '\n' :: '\n' :: paraCollapseAux f
          ((c :: t).drop (run.length - (run.reverse.takeWhile (· != '\n')).length))
      else c :: paraCollapseAux f t
    else c :: paraCollapseAux f t

def paraCollapse (l : List Char) : List Char := paraCollapseAux l.length l

/-- Model of Python `str.strip()`: remove leading and trailing whitespace. -/
def strip (l : List Char) : List Char :=
  ((l.dropWhile isWs).reverse.dropWhile isWs).reverse

/-- The `_clean_text` pipeline after the initial whitespace collapse, in
source order: denylist removal, quote/dash normalization, punctuation-run
collapsing, paragraph-break collapsing, final strip. -/
def cleanTail (l : List Char) : List Char :=
  strip (paraCollapse (collapseRuns isP2 ',' (collapseRuns isP1 '.'
    (normalizeDashes (weirdSubst (dqSubst (removeUnwanted l)))))))

/-- Model of `AdvancedTextProcessor._clean_text` (the Text Normalizer): the
empty-input guard, whitespace collapsing, then `cleanTail`. -/
def clean_text (l : List Char) : List Char :=
  if l.isEmpty then [] else cleanTail (collapseWs l)

/-- String-level wrapper of `clean_text`. -/
def cleanTextS (s : String) : String := String.mk (clean_text s.data)

/-- No two consecutive characters of the class `p` (the normalizer's
substitutions on runs of class characters are the identity exactly on such
lists). -/
def noTwo (p : Char → Bool) (l : List Char) : Prop :=
  List.Chain' (fun a b => ¬(p a = true ∧ p b = true)) l

/-- Every whitespace character of the list is a plain space. -/
def wsOnlySpace (l : List Char) : Prop := ∀ c ∈ l, isWs c = true → c = ' '

/-! ## Sentence and word splitting (`_split_sentences`, `str.split`)

The source prefers NLTK's `sent_tokenize` when that external library is
available and otherwise uses `re.split(r'[.!?]+', text)` followed by
stripping and dropping empty pieces; the deterministic in-source fallback is
what is modelled (splitting at every single `[.!?]` character produces the
same result as splitting at runs once empty pieces are dropped). -/

def splitRawAux (p : Char → Bool) : List Char → List Char → List (List Char)
  | [], cur => [cur.reverse]
  | c :: t, cur =>
    if p c then cur.reverse :: splitRawAux p t [] else splitRawAux p t (c :: cur)

/-- Model of `_split_sentences` (regex fallback path): split on sentence-final
punctuation, strip each piece, drop empty pieces. -/
def split_sentences (s : String) : List String :=
  (((splitRawAux isP1 s.data []).map strip).filter (fun l => !l.isEmpty)).map String.mk

def wordsAux : List Char → List Char → List (List Char)
  | [], cur => if cur.isEmpty then [] else [cur.reverse]
  | c :: t, cur =>
    if isWs c then
      (if cur.isEmpty then wordsAux t [] else cur.reverse :: wordsAux t [])
    else wordsAux t (c :: cur)

/-- Model of Python `str.split()` with no separator: maximal non-whitespace
runs. -/
def splitWords (l : List Char) : List (List Char) := wordsAux l []

/-- Model of `len(text.split())`. -/
def word_count (s : String) : Nat := (splitWords s.data).length

/-- Model of `len(set(text.lower().split()))`.  The count of a Python set is
order-independent, so `List.dedup` is a faithful model of its size. -/
def unique_word_count (s : String) : Nat :=
  ((splitWords (s.data.map Char.toLower)).dedup).length

/-! ## Chunk construction (`TextChunk`, `_create_chunk_object`, quality) -/

/-- Model of `_calculate_chunk_quality` with Python floats read as rationals
(the verified chunker properties do not depend on the score's value). -/
def calculate_chunk_quality (s : String) : ℚ :=
  if s.data.isEmpty then 0 else
    let wc := word_count s
    let lenScore : ℚ :=
      if 50 < wc then 3/10 else if 20 < wc then 2/10 else if 10 < wc then 1/10 else 0
    let uw := unique_word_count s
    let richScore : ℚ := if 20 < uw then 3/10 else if 10 < uw then 2/10 else 0
    let n := (split_sentences s).length
    let sentScore : ℚ := if 2 < n then 2/10 else if 1 < n then 1/10 else 0
    let avg : ℚ := if n = 0 then 0 else (wc : ℚ) / n
    let readScore : ℚ :=
      if 10 ≤ avg ∧ avg ≤ 25 then 2/10 else if 5 ≤ avg ∧ avg ≤ 30 then 1/10 else 0
    min (lenScore + richScore + sentScore + readScore) 1

/-- Model of the `TextChunk` dataclass. -/
structure TextChunk where
  index : Nat
  text : String
  start_char : Nat
  end_char : Nat
  word_count : Nat
  sentence_count : Nat
  language : String
  quality_score : ℚ
  topics : List String
  key_phrases : List String
deriving DecidableEq

/-- The chunk-analysis capabilities whose in-source implementations depend on
optional external libraries (`langdetect`, NLTK) or on Python `set` iteration
order (`_detect_language`, `_extract_topics`, `_extract_key_phrases`); every
chunker theorem holds for an arbitrary choice. -/
structure ChunkAnalyzers where
  languageOf : String → String
  topicsOf : String → List String
  keyPhrasesOf : String → List String

/-- The trivial analyzers (the in-source fallbacks when no external library is
available and the text has no capitalized/quoted phrases), used to instantiate
witnesses. -/
def defaultAnalyzers : ChunkAnalyzers := ⟨fun _ => "en", fun _ => [], fun _ => []⟩

/-- Model of `_create_chunk_object`. -/
def create_chunk_object (A : ChunkAnalyzers) (idx : Nat) (text : String)
    (s e : Nat) : TextChunk :=
  { index := idx
    text := text
    start_char := s
    end_char := e
    word_count := word_count text
    sentence_count := (split_sentences text).length
    language := A.languageOf text
    quality_score := calculate_chunk_quality text
    topics := A.topicsOf text
    key_phrases := A.keyPhrasesOf text }

/-! ## The chunker (`create_enhanced_chunks`, `_get_overlap_sentences`,
`_simple_chunking`) -/

/-- The greedy accumulation loop of `_get_overlap_sentences`: walk the
sentence list from the front, keeping sentences while the running character
total stays within the overlap budget, and stop at the first one that does
not fit. -/
def overlapTake (ovSize : Nat) : List String → Nat → List String
  | [], _ => []
  | s :: rest, acc =>
    if acc + s.length ≤ ovSize then s :: overlapTake ovSize rest (acc + s.length)
    else []

/-- Model of `_get_overlap_sentences`. -/
def get_overlap_sentences (sentences : List String) (ovSize : Nat) : List String :=
  if sentences.isEmpty || ovSize == 0 then []
  else if (String.intercalate " " sentences).length ≤ ovSize then sentences
  else overlapTake ovSize sentences 0

/-- The loop state of `create_enhanced_chunks`: emitted chunks, the sentences
of the chunk under construction, their summed character length (without
joining spaces, as in the source), and the running start offset. -/
structure ChunkState where
  chunks : List TextChunk
  cur : List String
  curLen : Nat
  startChar : Nat

def sumLens (l : List String) : Nat := (l.map String.length).sum

/-- One iteration of the sentence loop of `create_enhanced_chunks`. -/
def chunkStep (A : ChunkAnalyzers) (csize ov : Nat) (st : ChunkState)
    (sentence : String) : ChunkState :=
  if csize < st.curLen + sentence.length && !st.cur.isEmpty then
    let ctext := String.intercalate " " st.cur
    let ch := create_chunk_object A st.chunks.length ctext st.startChar
      (st.startChar + ctext.length)
    let ovs := get_overlap_sentences st.cur ov
    { chunks := st.chunks ++ [ch]
      cur := ovs ++ [sentence]
      curLen := sumLens (ovs ++ [sentence])
      startChar := st.startChar + (String.intercalate " " ovs).length }
  else
    { st with cur := st.cur ++ [sentence], curLen := st.curLen + sentence.length }

/-- The final-chunk emission after the sentence loop. -/
def chunkFinalize (A : ChunkAnalyzers) (st : ChunkState) : List TextChunk :=
  if st.cur.isEmpty then st.chunks
  else
    st.chunks ++ [create_chunk_object A st.chunks.length
      (String.intercalate " " st.cur) st.startChar
      (st.startChar + (String.intercalate " " st.cur).length)]

/-- Model of `AdvancedTextProcessor.create_enhanced_chunks` (the main,
sentence-based path): clean the text, split it into sentences, greedily
accumulate sentences into chunks, seeding each new chunk with the overlap
window of the chunk just emitted. -/
def create_enhanced_chunks (A : ChunkAnalyzers) (text : String)
    (csize ov : Nat) : List TextChunk :=
  chunkFinalize A
    ((split_sentences (cleanTextS text)).foldl (chunkStep A csize ov) ⟨[], [], 0, 0⟩)

/-- The window loop of `_simple_chunking`; the fuel is instantiated with
`length + 1`, which bounds the number of iterations since the step is
positive. -/
def simpleGo (A : ChunkAnalyzers) (text : List Char) (csize step : Nat) :
    Nat → Nat → Nat → List TextChunk
  | 0, _, _ => []
  | f + 1, i, idx =>
    if i < text.length then
      let window := (text.drop i).take csize
      let stripped := strip window
      if stripped.isEmpty then simpleGo A text csize step f (i + step) idx
      else
        create_chunk_object A idx (String.mk stripped) i (i + window.length) ::
          simpleGo A text csize step f (i + step) (idx + 1)
    else []

/-- Model of `AdvancedTextProcessor._simple_chunking` (the fallback path):
fixed-size character windows advancing by `chunk_size - overlap`.  Python's
`range(0, n, step)` raises `ValueError` on a zero step (`none` here) and is
empty on a negative step. -/
def simple_chunking (A : ChunkAnalyzers) (text : String) (csize ov : Nat) :
    Option (List TextChunk) :=
  if csize = ov then none
  else if csize < ov then some []
  else some (simpleGo A text.data csize (csize - ov) (text.length + 1) 0 0)

/-! ## AI annotator (`EnhancedAIProcessor`)

The text-completion capability is an oracle: for each field the outcome of
the completion call is either the returned text or the raised error message.
Each `_extract_*` coroutine catches a capability failure and returns its own
typed fallback; the additional `try/except` around each field in
`_standard_processing` substitutes `_get_fallback_value(name)`, which is the
same value, so the composition below is the observable behavior. -/

/-- Model of Python `str.lstrip(chars)`: drop leading characters belonging to
the given set. -/
def lstripSet (chars : List Char) (l : List Char) : List Char :=
  l.dropWhile (fun c => chars.contains c)

/-- Model of Python `str.rstrip(chars)`. -/
def rstripSet (chars : List Char) (l : List Char) : List Char :=
  (l.reverse.dropWhile (fun c => chars.contains c)).reverse

/-- String-level `str.strip()`. -/
def stripS (s : String) : String := String.mk (strip s.data)

/-- Model of the insight records produced by `_parse_insights`. -/
structure Insight where
  text : String
  relevance_score : ℚ
  category : String
deriving DecidableEq

/-- Model of `_parse_insights`: keep stripped lines that look like bullets
(leading `-`, `•`, digit, or the word `Insight`), strip the bullet marker,
and cap the list at 8. -/
def parse_insights (t : String) : List Insight :=
  ((t.splitOn "\n").filterMap (fun raw =>
    let line := stripS raw
    if line != "" && (line.startsWith "-" || line.startsWith "•" ||
        (line.data.headD ' ').isDigit || line.startsWith "Insight") then
      let text := String.mk (lstripSet "-•0123456789. ".data line.data)
      if text != "" then some (⟨text, 8/10, "general"⟩ : Insight) else none
    else none)).take 8

/-- Model of `_parse_tags`.  Python deduplicates with `list(set(tags))`, whose
iteration order is unspecified; the model keeps the first occurrence of each
tag.  The cap of 15 applies after deduplication. -/
def parse_tags (t : String) : List String :=
  (((t.splitOn "\n").filterMap (fun raw =>
    let line := stripS raw
    if line != "" && (line.startsWith "-" || line.startsWith "•" ||
        (line.data.headD ' ').isAlpha) then
      let tag := stripS (String.mk (lstripSet "-• ".data line.data))
      if tag != "" && tag.length < 50 then some tag else none
    else none)).dedup).take 15

/-- Model of `_parse_action_items`: bullet or numbered lines, marker stripped,
capped at 10. -/
def parse_action_items (t : String) : List String :=
  ((t.splitOn "\n").filterMap (fun raw =>
    let line := stripS raw
    if line != "" && (line.startsWith "-" || line.startsWith "•" ||
        (line.data.headD ' ').isDigit) then
      let action := String.mk (lstripSet "-•0123456789. ".data line.data)
      if action != "" then some action else none
    else none)).take 10

/-- Model of the snippet records of `_parse_quotable_snippets` (the `context`
key is absent until a `Context:` line is seen). -/
structure QuoteSnippet where
  quote : String
  context : Option String
deriving DecidableEq

def parseQuotesAux : List String → Option QuoteSnippet → List QuoteSnippet
  | [], cur => match cur with | some q => [q] | none => []
  | raw :: rest, cur =>
    let line := stripS raw
    if line.startsWith "Quote:" || line.startsWith "\"" then
      let newQ : QuoteSnippet :=
        ⟨String.mk (rstripSet ['"'] (lstripSet "Quote: \"".data line.data)), none⟩
      match cur with
      | some q => q :: parseQuotesAux rest (some newQ)
      | none => parseQuotesAux rest (some newQ)
    else if line.startsWith "Context:" then
      match cur with
      | some q =>
        parseQuotesAux rest
          (some { q with context := some (String.mk (lstripSet "Context: ".data line.data)) })
      | none => parseQuotesAux rest none
    else parseQuotesAux rest cur

/-- Model of `_parse_quotable_snippets`, capped at 5. -/
def parse_quotable_snippets (t : String) : List QuoteSnippet :=
  (parseQuotesAux (t.splitOn "\n") none).take 5

/-- Per-field outcome of the text-completion capability: the completion text
on success, the raised error message on failure. -/
structure FieldOutcomes where
  title : Except String String
  summary : Except String String
  insights : Except String String
  tags : Except String String
  action_items : Except String String
  quotable_snippets : Except String String

/-- The record returned by `_standard_processing`. -/
structure AIResults where
  title : String
  summary : String
  insights : List Insight
  tags : List String
  action_items : List String
  quotable_snippets : List QuoteSnippet
deriving DecidableEq

/-- Model of `_extract_title`: strip the completion, fall back to
`"Untitled"`. -/
def extract_title (o : Except String String) : String :=
  match o with | .ok t => stripS t | .error _ => "Untitled"

/-- Model of `_extract_summary`, falling back to `"Summary not available"`. -/
def extract_summary (o : Except String String) : String :=
  match o with | .ok t => stripS t | .error _ => "Summary not available"

/-- Model of `_extract_insights`, falling back to the empty list. -/
def extract_insights (o : Except String String) : List Insight :=
  match o with | .ok t => parse_insights (stripS t) | .error _ => []

/-- Model of `_extract_tags`, falling back to the empty list. -/
def extract_tags (o : Except String String) : List String :=
  match o with | .ok t => parse_tags (stripS t) | .error _ => []

/-- Model of `_extract_action_items`, falling back to the empty list. -/
def extract_action_items (o : Except String String) : List String :=
  match o with | .ok t => parse_action_items (stripS t) | .error _ => []

/-- Model of `_extract_quotable_snippets`, falling back to the empty list. -/
def extract_quotable_snippets (o : Except String String) : List QuoteSnippet :=
  match o with | .ok t => parse_quotable_snippets (stripS t) | .error _ => []

/-- Model of `_standard_processing`: each field is extracted independently
from its own completion outcome; a total function, so the call never raises. -/
def standard_processing (o : FieldOutcomes) : AIResults :=
  { title := extract_title o.title
    summary := extract_summary o.summary
    insights := extract_insights o.insights
    tags := extract_tags o.tags
    action_items := extract_action_items o.action_items
    quotable_snippets := extract_quotable_snippets o.quotable_snippets }

/-! ## Embedder fallback (`ContentProcessor._generate_embedding`)

The fallback is `[float(b) / 255.0 for b in md5(text.encode()).digest()] * 48`
truncated to 1536 entries.  MD5 is implemented below over byte lists (`Nat`
values below 256), so the fallback is a concrete executable function. -/

/-- Rotate a 32-bit value left by `s` (for `0 ≤ s < 32`). -/
def rotl32 (x s : Nat) : Nat :=
  (x % 2 ^ (32 - s)) * 2 ^ s + x / 2 ^ (32 - s)

/-- The 64 MD5 sine-table constants. -/
def mdK : List Nat :=
  [0xd76aa478, 0xe8c7b756, 0x242070db, 0xc1bdceee,
   0xf57c0faf, 0x4787c62a, 0xa8304613, 0xfd469501,
   0x698098d8, 0x8b44f7af, 0xffff5bb1, 0x895cd7be,
   0x6b901122, 0xfd987193, 0xa679438e, 0x49b40821,
   0xf61e2562, 0xc040b340, 0x265e5a51, 0xe9b6c7aa,
   0xd62f105d, 0x02441453, 0xd8a1e681, 0xe7d3fbc8,
   0x21e1cde6, 0xc33707d6, 0xf4d50d87, 0x455a14ed,
   0xa9e3e905, 0xfcefa3f8, 0x676f02d9, 0x8d2a4c8a,
   0xfffa3942, 0x8771f681, 0x6d9d6122, 0xfde5380c,
   0xa4beea44, 0x4bdecfa9, 0xf6bb4b60, 0xbebfbc70,
   0x289b7ec6, 0xeaa127fa, 0xd4ef3085, 0x04881d05,
   0xd9d4d039, 0xe6db99e5, 0x1fa27cf8, 0xc4ac5665,
   0xf4292244, 0x432aff97, 0xab9423a7, 0xfc93a039,
   0x655b59c3, 0x8f0ccc92, 0xffeff47d, 0x85845dd1,
   0x6fa87e4f, 0xfe2ce6e0, 0xa3014314, 0x4e0811a1,
   0xf7537e82, 0xbd3af235, 0x2ad7d2bb, 0xeb86d391]

/-- The 64 MD5 per-round shift amounts. -/
def mdS : List Nat :=
  [7, 12, 17, 22, 7, 12, 17, 22, 7, 12, 17, 22, 7, 12, 17, 22,
   5, 9, 14, 20, 5, 9, 14, 20, 5, 9, 14, 20, 5, 9, 14, 20,
   4, 11, 16, 23, 4, 11, 16, 23, 4, 11, 16, 23, 4, 11, 16, 23,
   6, 10, 15, 21, 6, 10, 15, 21, 6, 10, 15, 21, 6, 10, 15, 21]

/-- Little-endian bytes of a value, `n` bytes wide. -/
def leBytes (width n : Nat) : List Nat :=
  (List.range width).map (fun i => n / 2 ^ (8 * i) % 256)

/-- MD5 padding: `0x80`, zeros to 56 mod 64, then the 64-bit little-endian
bit length. -/
def md5pad (msg : List Nat) : List Nat :=
  msg ++ [0x80] ++
    List.replicate ((56 + 64 - (msg.length + 1) % 64) % 64) 0 ++
    leBytes 8 (8 * msg.length % 2 ^ 64)

def toBlocksAux : Nat → List Nat → List (List Nat)
  | 0, _ => []
  | _, [] => []
  | f + 1, l => l.take 64 :: toBlocksAux f (l.drop 64)

/-- Split a padded message into 64-byte blocks. -/
def toBlocks (l : List Nat) : List (List Nat) := toBlocksAux l.length l

/-- The sixteen 32-bit little-endian words of a 64-byte block. -/
def wordsOf (block : List Nat) : List Nat :=
  (List.range 16).map (fun g =>
    block.getD (4 * g) 0 + 256 * block.getD (4 * g + 1) 0 +
      65536 * block.getD (4 * g + 2) 0 + 16777216 * block.getD (4 * g + 3) 0)

structure MDState where
  a : Nat
  b : Nat
  c : Nat
  d : Nat

/-- One of the 64 MD5 rounds. -/
def md5round (M : List Nat) (st : MDState) (i : Nat) : MDState :=
  let nt := fun x => 0xffffffff ^^^ x
  let f :=
    if i < 16 then st.b &&& st.c ||| nt st.b &&& st.d
    else if i < 32 then st.d &&& st.b ||| nt st.d &&& st.c
    else if i < 48 then st.b ^^^ st.c ^^^ st.d
    else st.c ^^^ (st.b ||| nt st.d)
  let g :=
    if i < 16 then i
    else if i < 32 then (5 * i + 1) % 16
    else if i < 48 then (3 * i + 5) % 16
    else 7 * i % 16
  let f2 := (f + st.a + mdK.getD i 0 + M.getD g 0) % 2 ^ 32
  ⟨st.d, (st.b + rotl32 f2 (mdS.getD i 0)) % 2 ^ 32, st.b, st.c⟩

/-- Process one 64-byte block. -/
def md5block (st : MDState) (block : List Nat) : MDState :=
  let M := wordsOf block
  let r := (List.range 64).foldl (md5round M) st
  ⟨(st.a + r.a) % 2 ^ 32, (st.b + r.b) % 2 ^ 32,
   (st.c + r.c) % 2 ^ 32, (st.d + r.d) % 2 ^ 32⟩

/-- The 16-byte MD5 digest of a byte list. -/
def md5 (msg : List Nat) : List Nat :=
  let r := (toBlocks (md5pad msg)).foldl md5block
    ⟨0x67452301, 0xefcdab89, 0x98badcfe, 0x10325476⟩
  leBytes 4 r.a ++ leBytes 4 r.b ++ leBytes 4 r.c ++ leBytes 4 r.d

/-- Model of `str.encode()` for ASCII text (each code point is one byte). -/
def asciiBytes (s : String) : List Nat := s.data.map Char.toNat

/-- Model of the fallback branch of `ContentProcessor._generate_embedding`:
hash the text with MD5, map each digest byte to `b / 255`, repeat the list
48 times, and truncate to 1536 entries.  Python floats are modelled as
rationals; the verified properties (length, determinism, range) are
rounding-independent. -/
def fallback_embedding (textBytes : List Nat) : List ℚ :=
  ((List.replicate 48 ((md5 textBytes).map (fun b => (b : ℚ) / 255))).flatten).take 1536

/-! ## Processing pipeline (`EnhancedProcessingPipeline`)

Stage operations are oracles indexed by the attempt number; the pipeline run
is a pure function of those outcomes, recording the final task state, the
stages entered, the document rows written, and the aggregate metrics. -/

inductive PStatus where
  | pending | processing | completed | failed | cancelled
deriving DecidableEq

inductive PStage where
  | initialized | content_extraction | text_processing | ai_analysis
  | embedding_generation | database_storage | completed
deriving DecidableEq

/-- Model of the mutable fields of `ProcessingTask` that the verified
properties mention. -/
structure TaskRec where
  status : PStatus
  stage : PStage
  progress : ℚ
  errorMessage : Option String
deriving DecidableEq

/-- Model of `ProcessingTask.update_status`: the stage and progress are kept
when the corresponding argument is absent, and the error message is only
overwritten by a truthy (non-empty) value. -/
def update_status (t : TaskRec) (status : PStatus) (stage : Option PStage)
    (progress : Option ℚ) (errMsg : Option String) : TaskRec :=
  { status := status
    stage := stage.getD t.stage
    progress := progress.getD t.progress
    errorMessage :=
      match errMsg with
      | some e => if e = "" then t.errorMessage else some e
      | none => t.errorMessage }

/-- The aggregate counters of `self.metrics` (initialized to zero in
`__init__`). -/
structure Metrics where
  total_processed : Nat
  successful : Nat
  failed : Nat
  total_processing_time : ℚ
deriving DecidableEq

def initMetrics : Metrics := ⟨0, 0, 0, 0⟩

/-- The metric updates performed by `_complete_task`. -/
def metricsComplete (m : Metrics) (dt : ℚ) : Metrics :=
  { m with
    total_processed := m.total_processed + 1
    successful := m.successful + 1
    total_processing_time := m.total_processing_time + dt }

/-- The metric updates performed by `_handle_task_error`. -/
def metricsFail (m : Metrics) : Metrics :=
  { m with total_processed := m.total_processed + 1, failed := m.failed + 1 }

/-- The success rate derived on demand by `get_processing_metrics`. -/
def success_rate (m : Metrics) : ℚ :=
  if 0 < m.total_processed then (m.successful : ℚ) / m.total_processed else 0

/-- Per-stage operation outcomes, indexed by the attempt number (the external
fetch / text processing / AI / embedding / database calls). -/
structure StageOutcomes where
  extract : Nat → Except String String
  textProc : Nat → Except String Unit
  aiProc : Nat → Except String Unit
  embedProc : Nat → Except String Unit
  storeProc : Nat → Except String Unit

/-- The per-task retry budget (`ProcessingTask.max_retries`). -/
def maxRetries : Nat := 3

/-- The retry loop shared by all `_*_with_retry` helpers: attempts
`0 .. maxRetries`; an intermediate failure backs off and retries, and failure
at the last attempt raises a wrapper message around the last error. -/
def retryLoop {α : Type} (op : Nat → Except String α) (wrap : String → String) :
    Nat → Nat → Except String α
  | 0, _ => .error (wrap "")
  | 1, attempt =>
    match op attempt with
    | .ok v => .ok v
    | .error e => .error (wrap e)
  | f + 2, attempt =>
    match op attempt with
    | .ok v => .ok v
    | .error _ => retryLoop op wrap (f + 1) (attempt + 1)

def with_retry {α : Type} (op : Nat → Except String α) (wrap : String → String) :
    Except String α :=
  retryLoop op wrap (maxRetries + 1) 0

/-- The wrapper message raised after the retry budget is exhausted, with the
last error embedded verbatim. -/
def wrapMsg (what : String) (e : String) : String :=
  "Failed to " ++ what ++ " after " ++ toString (maxRetries + 1) ++ " attempts: " ++ e

/-- The content-extraction attempt of `_extract_content_with_retry`,
including its in-stage validity check (`not content or len(content.strip())
< 50` raises `Insufficient content extracted`). -/
def extractOp (o : StageOutcomes) (attempt : Nat) : Except String String :=
  match o.extract attempt with
  | .error e => .error e
  | .ok content =>
    if content.isEmpty || (strip content.data).length < 50 then
      .error "Insufficient content extracted"
    else .ok content

/-- A row written to the `documents` table (only the field the verified
properties mention). -/
structure DocWrite where
  processing_status : String
deriving DecidableEq

/-- The observable effects of one `_process_task` run. -/
structure PipelineRun where
  task : TaskRec
  stagesEntered : List PStage
  docWrites : List DocWrite
  metrics : Metrics
deriving DecidableEq

def initialTask : TaskRec := ⟨.pending, .initialized, 0, none⟩

/-- Model of `_update_task_progress`: mark the task processing at the given
stage and progress checkpoint. -/
def enterStage (r : PipelineRun) (st : PStage) (prog : ℚ) : PipelineRun :=
  { r with
    task := update_status r.task .processing (some st) (some prog) none
    stagesEntered := r.stagesEntered ++ [st] }

/-- Model of `_handle_task_error`: mark the task failed (keeping its stage),
record the error message, and count a failure. -/
def handle_task_error (r : PipelineRun) (msg : String) : PipelineRun :=
  { r with
    task := update_status r.task .failed none none (some msg)
    metrics := metricsFail r.metrics }

/-- Model of `_complete_task` (with `dt` the externally measured processing
time). -/
def complete_task (r : PipelineRun) (dt : ℚ) : PipelineRun :=
  { r with
    task := update_status r.task .completed (some .completed) (some 1) none
    metrics := metricsComplete r.metrics dt }

/-- Model of `_process_task`: the five stages in order, each wrapped in the
retry loop; the first stage failure is handled by `_handle_task_error` and no
later stage executes.  The document row (with `processing_status =
"completed"`) is written only by a successful storage stage. -/
def process_task (o : StageOutcomes) (dt : ℚ) : PipelineRun :=
  let r1 := enterStage ⟨initialTask, [], [], initMetrics⟩ .content_extraction (1/10)
  match with_retry (extractOp o) (wrapMsg "extract content") with
  | .error e => handle_task_error r1 e
  | .ok _ =>
    let r2 := enterStage r1 .text_processing (3/10)
    match with_retry o.textProc (wrapMsg "process text") with
    | .error e => handle_task_error r2 e
    | .ok _ =>
      let r3 := enterStage r2 .ai_analysis (6/10)
      match with_retry o.aiProc (wrapMsg "analyze with AI") with
      | .error e => handle_task_error r3 e
      | .ok _ =>
        let r4 := enterStage r3 .embedding_generation (8/10)
        match with_retry o.embedProc (wrapMsg "generate embeddings") with
        | .error e => handle_task_error r4 e
        | .ok _ =>
          let r5 := enterStage r4 .database_storage (9/10)
          match with_retry o.storeProc (wrapMsg "store results") with
          | .error e => handle_task_error r5 e
          | .ok _ =>
            complete_task { r5 with docWrites := r5.docWrites ++ [⟨"completed"⟩] } dt

/-- The state-changing metric operations of the orchestrator. -/
inductive MetricsOp where
  | complete (dt : ℚ)
  | fail

def applyMetricsOp (m : Metrics) : MetricsOp → Metrics
  | .complete dt => metricsComplete m dt
  | .fail => metricsFail m

/-- Every reachable metrics state: the zero-initialized counters followed by
any sequence of `_complete_task` / `_handle_task_error` updates. -/
def runMetrics (ops : List MetricsOp) : Metrics :=
  ops.foldl applyMetricsOp initMetrics

/-! ## Hybrid search (`EnhancedSearchService._hybrid_search`)

The three sub-searches are external queries; their result lists are inputs.
A sub-search that raised is skipped by the `isinstance(result, list)` check,
which is the same as contributing the empty list.  The accumulator models the
insertion-ordered Python dict keyed by document id. -/

structure SearchDoc where
  id : Nat
  relevance_score : ℚ
deriving DecidableEq

/-- Processing of one result document in the merge loop: first sight inserts
it; a repeat combines scores, weighting `0.3/0.7` while scanning the semantic
result list (`i == 0`) and `0.6/0.4` while scanning the keyword or tag
lists. -/
def upsertDoc (i : Nat) (acc : List SearchDoc) (d : SearchDoc) : List SearchDoc :=
  if acc.any (fun e => e.id == d.id) then
    acc.map (fun e =>
      if e.id == d.id then
        { e with relevance_score :=
            if i == 0 then e.relevance_score * (3/10) + d.relevance_score * (7/10)
            else e.relevance_score * (6/10) + d.relevance_score * (4/10) }
      else e)
  else acc ++ [d]

def mergePhase (i : Nat) (acc : List SearchDoc) (docs : List SearchDoc) :
    List SearchDoc :=
  docs.foldl (upsertDoc i) acc

/-- The combine-and-deduplicate loop over the semantic, keyword and tag
result lists, in that order. -/
def mergeAll (sem kw tag : List SearchDoc) : List SearchDoc :=
  mergePhase 2 (mergePhase 1 (mergePhase 0 [] sem) kw) tag

/-- Stable descending insertion by relevance score (equal scores keep their
first-seen order, as Python's stable `sort(reverse=True)` does). -/
def insertDesc (d : SearchDoc) : List SearchDoc → List SearchDoc
  | [] => [d]
  | e :: t =>
    if e.relevance_score < d.relevance_score then d :: e :: t
    else e :: insertDesc d t

def sortDesc (l : List SearchDoc) : List SearchDoc :=
  l.foldl (fun acc d => insertDesc d acc) []

/-- Model of `_hybrid_search`: merge, deduplicate, sort by combined relevance
descending, truncate to the limit. -/
def hybrid_search (sem kw tag : List SearchDoc) (limit : Nat) : List SearchDoc :=
  (sortDesc (mergeAll sem kw tag)).take limit

/-- The merged score of a given document id (the dict entry). -/
def lookupScore (acc : List SearchDoc) (i : Nat) : Option ℚ :=
  (acc.find? (fun e => e.id == i)).map (·.relevance_score)

/-! ## Ingestion endpoint (`ingest_content` in `backend/api/v1/ingest.py`)

Identifiers drawn from `uuid.uuid4()` are modelled by a fresh-id counter, and
the documents table by a list of rows with the fields the endpoint touches. -/

structure DocRec where
  id : Nat
  user : Nat
  url : Option String
  processing_status : String
deriving DecidableEq

structure IngestState where
  documents : List DocRec
  pipelineTasks : List Nat
  nextId : Nat
deriving DecidableEq

/-- The `ProcessingStatus` response body of the endpoint. -/
structure IngestResponse where
  job_id : Nat
  status : String
  message : String
deriving DecidableEq

/-- Draw a fresh identifier (model of `uuid.uuid4()`). -/
def fresh (st : IngestState) : Nat × IngestState :=
  (st.nextId, { st with nextId := st.nextId + 1 })

/-- The duplicate-check query: first row with this owner and source URL. -/
def findExisting (st : IngestState) (user : Nat) (u : String) : Option DocRec :=
  (st.documents.filter (fun d => d.user == user && d.url == some u)).head?

/-- Model of `EnhancedProcessingPipeline.process_url`: generate a fresh task
id, register the background task, and return the task id. -/
def process_url (st : IngestState) : Nat × IngestState :=
  let (tid, st1) := fresh st
  (tid, { st1 with pipelineTasks := st1.pipelineTasks ++ [tid] })

/-- The insert-and-start tail of `ingest_content`: create the document row
under a fresh job id (recovering from a `(user_id, source_url)` unique
constraint violation by returning the existing row's identity), then for URL
submissions start the enhanced pipeline and return its separate task id. -/
def ingestInsert (st : IngestState) (user : Nat) (url : Option String) :
    IngestResponse × IngestState :=
  let (jobId, st1) := fresh st
  match url with
  | some u =>
    if st1.documents.any (fun d => d.user == user && d.url == some u) then
      match findExisting st1 user u with
      | some ex =>
        if ex.processing_status == "completed" then
          (⟨ex.id, "completed", "This URL has already been processed"⟩, st1)
        else if ex.processing_status == "pending" || ex.processing_status == "processing" then
          (⟨ex.id, ex.processing_status,
            "Content is already " ++ ex.processing_status⟩, st1)
        else
          (⟨ex.id, ex.processing_status, "This URL has already been submitted"⟩, st1)
      | none => (⟨jobId, "error", "This URL has already been submitted"⟩, st1)
    else
      let st2 := { st1 with documents :=
        st1.documents ++ [⟨jobId, user, some u, "pending"⟩] }
      let (tid, st3) := process_url st2
      (⟨tid, "pending", "Content processing started with enhanced pipeline"⟩, st3)
  | none =>
    let st2 := { st1 with documents :=
      st1.documents ++ [⟨jobId, user, none, "pending"⟩] }
    (⟨jobId, "pending", "Content processing started"⟩, st2)

/-- Model of the `ingest_content` endpoint: the duplicate pre-check
short-circuits on an existing pending / processing / completed row for the
same `(user, source_url)` pair, a failed row falls through to a retry, and a
fresh submission inserts a pending document row and starts processing. -/
def ingest_content (st : IngestState) (user : Nat) (url : Option String) :
    IngestResponse × IngestState :=
  match url with
  | some u =>
    match findExisting st user u with
    | some ex =>
      if ex.processing_status == "pending" then
        (⟨ex.id, "pending", "Content is already being processed"⟩, st)
      else if ex.processing_status == "processing" then
        (⟨ex.id, "processing", "Content is currently being processed"⟩, st)
      else if ex.processing_status == "completed" then
        (⟨ex.id, "completed", "This URL has already been processed"⟩, st)
      else ingestInsert st user url
    | none => ingestInsert st user url
  | none => ingestInsert st user url

/-! ## Helper lemmas for the chunker claims -/

theorem overlapTake_leading (ov : Nat) :
    ∀ (l : List String) (acc : Nat), overlapTake ov l acc <+: l := by
  intro l
  induction l with
  | nil => intro acc; simp [overlapTake]
  | cons s rest ih =>
    intro acc
    unfold overlapTake
    split
    · obtain ⟨t, ht⟩ := ih (acc + s.length)
      exact ⟨t, by rw [List.cons_append, ht]⟩
    · exact ⟨s :: rest, rfl⟩

theorem overlapTake_sum (ov : Nat) :
    ∀ (l : List String) (acc : Nat), acc ≤ ov →
      acc + sumLens (overlapTake ov l acc) ≤ ov := by
  intro l
  induction l with
  | nil => intro acc h; simpa [overlapTake, sumLens]
  | cons s rest ih =>
    intro acc h
    unfold overlapTake
    split
    · rename_i hfit
      have := ih (acc + s.length) hfit
      simp only [sumLens, List.map_cons, List.sum_cons] at this ⊢
      omega
    · simpa [sumLens]

theorem chunkStep_inv (A : ChunkAnalyzers) (cs ov : Nat) (st : ChunkState) (s : String)
    (h1 : st.chunks.map (·.index) = List.range st.chunks.length)
    (h2 : ∀ c ∈ st.chunks, c.end_char = c.start_char + c.text.length) :
    ((chunkStep A cs ov st s).chunks.map (·.index)
      = List.range (chunkStep A cs ov st s).chunks.length)
    ∧ ∀ c ∈ (chunkStep A cs ov st s).chunks,
        c.end_char = c.start_char + c.text.length := by
  unfold chunkStep
  split
  · constructor
    · simp [create_chunk_object, h1, List.range_succ]
    · intro c hc
      rcases List.mem_append.mp hc with h | h
      · exact h2 c h
      · rcases List.mem_singleton.mp h with rfl
        rfl
  · exact ⟨h1, h2⟩

theorem chunkFold_inv (A : ChunkAnalyzers) (cs ov : Nat) :
    ∀ (l : List String) (st : ChunkState),
      (st.chunks.map (·.index) = List.range st.chunks.length
        ∧ ∀ c ∈ st.chunks, c.end_char = c.start_char + c.text.length) →
      ((l.foldl (chunkStep A cs ov) st).chunks.map (·.index)
        = List.range (l.foldl (chunkStep A cs ov) st).chunks.length
      ∧ ∀ c ∈ (l.foldl (chunkStep A cs ov) st).chunks,
          c.end_char = c.start_char + c.text.length) := by
  intro l
  induction l with
  | nil => intro st h; exact h
  | cons s rest ih =>
    intro st h
    exact ih _ (chunkStep_inv A cs ov st s h.1 h.2)

theorem chunkFinalize_inv (A : ChunkAnalyzers) (st : ChunkState)
    (h1 : st.chunks.map (·.index) = List.range st.chunks.length)
    (h2 : ∀ c ∈ st.chunks, c.end_char = c.start_char + c.text.length) :
    ((chunkFinalize A st).map (·.index) = List.range (chunkFinalize A st).length)
    ∧ ∀ c ∈ chunkFinalize A st, c.end_char = c.start_char + c.text.length := by
  unfold chunkFinalize
  split
  · exact ⟨h1, h2⟩
  · constructor
    · simp [create_chunk_object, h1, List.range_succ]
    · intro c hc
      rcases List.mem_append.mp hc with h | h
      · exact h2 c h
      · rcases List.mem_singleton.mp h with rfl
        rfl

theorem strip_sublist (l : List Char) : (strip l).Sublist l := by
  have h1 : (l.dropWhile isWs).Sublist l := (List.dropWhile_suffix isWs).sublist
  have h2 : ((l.dropWhile isWs).reverse.dropWhile isWs).Sublist (l.dropWhile isWs).reverse :=
    (List.dropWhile_suffix isWs).sublist
  have h3 : (strip l).Sublist (l.dropWhile isWs) := by
    have h4 := h2.reverse
    simpa [strip] using h4
  exact h3.trans h1

theorem simpleGo_inv (A : ChunkAnalyzers) (text : List Char) (cs step : Nat) :
    ∀ (fuel i idx : Nat),
      ((simpleGo A text cs step fuel i idx).map (·.index)
        = List.range' idx (simpleGo A text cs step fuel i idx).length)
      ∧ ∀ c ∈ simpleGo A text cs step fuel i idx,
          c.text.length ≤ c.end_char - c.start_char := by
  intro fuel
  induction fuel with
  | zero => intro i idx; simp [simpleGo]
  | succ f ih =>
    intro i idx
    unfold simpleGo
    split
    · dsimp only
      split
      · exact ih (i + step) idx
      · rename_i hlt hne
        obtain ⟨ih1, ih2⟩ := ih (i + step) (idx + 1)
        constructor
        · simp only [List.map_cons, List.length_cons, ih1, create_chunk_object]
          rfl
        · intro c hc
          rcases List.mem_cons.mp hc with rfl | h
          · have hs : (strip ((text.drop i).take cs)).length
                ≤ ((text.drop i).take cs).length :=
              (strip_sublist _).length_le
            have hmk : (String.mk (strip ((text.drop i).take cs))).length
                = (strip ((text.drop i).take cs)).length := rfl
            simp only [create_chunk_object]
            omega
          · exact ih2 c h
    · simp [List.range']

theorem collapseWs_allWs :
    ∀ (l : List Char), l ≠ [] → (∀ c ∈ l, isWs c = true) → collapseWs l = [' '] := by
  intro l
  induction l with
  | nil => intro h; exact absurd rfl h
  | cons a t ih =>
    intro _ h
    match t, ih with
    | [], _ =>
      simp [collapseWs, h a (by simp)]
    | b :: t', ih =>
      have ha := h a (by simp)
      have hb := h b (by simp)
      have := ih (by simp) (fun c hc => h c (by simp [hc]))
      simp [collapseWs, ha, hb, this]

theorem cleanTail_single_space : cleanTail [' '] = [] := by decide

theorem clean_text_allWs (l : List Char) (h : ∀ c ∈ l, isWs c = true) :
    clean_text l = [] := by
  cases l with
  | nil => rfl
  | cons a t =>
    unfold clean_text
    rw [if_neg (by simp)]
    rw [collapseWs_allWs _ (by simp) h]
    exact cleanTail_single_space

/-- C1.  The claim as stated is false: in the `_simple_chunking` fallback the
chunk text is stripped but the span is the raw window, so
`end_char - start_char` can exceed `len(chunk.text)` (see the
counterexample).  Amended claim, proved here: in both paths the indices are
exactly `0..N-1`; every chunk of the sentence-based path satisfies
`end_char - start_char == len(text)`; and in the fallback every chunk
satisfies `len(text) <= end_char - start_char`, with equality exactly when
the window needed no stripping. -/
theorem C1_chunker_wellformed_amended :
    ∀ (A : ChunkAnalyzers) (text : String) (csize ov : Nat),
      ((create_enhanced_chunks A text csize ov).map (·.index)
          = List.range (create_enhanced_chunks A text csize ov).length)
      ∧ ((create_enhanced_chunks A text csize ov).all
          (fun c => c.end_char - c.start_char == c.text.length) = true)
      ∧ (((simple_chunking A text csize ov).getD []).map (·.index)
          = List.range ((simple_chunking A text csize ov).getD []).length)
      ∧ (((simple_chunking A text csize ov).getD []).all
          (fun c => decide (c.text.length ≤ c.end_char - c.start_char)) = true) := by
  intro A text csize ov
  obtain ⟨h1, h2⟩ := chunkFold_inv A csize ov (split_sentences (cleanTextS text))
    ⟨[], [], 0, 0⟩ (by simp)
  obtain ⟨g1, g2⟩ := chunkFinalize_inv A _ h1 h2
  refine ⟨g1, ?_, ?_, ?_⟩
  · rw [List.all_eq_true]
    intro c hc
    rw [beq_iff_eq, g2 c hc]
    omega
  · unfold simple_chunking
    split
    · simp
    · split
      · simp
      · obtain ⟨s1, _⟩ := simpleGo_inv A text.data csize (csize - ov) (text.length + 1) 0 0
        simpa [List.range_eq_range'] using s1
  · unfold simple_chunking
    split
    · simp
    · split
      · simp
      · obtain ⟨_, s2⟩ := simpleGo_inv A text.data csize (csize - ov) (text.length + 1) 0 0
        rw [List.all_eq_true]
        intro c hc
        simpa using s2 c (by simpa using hc)

/-- C1 counterexample: on text `"ab c"` with `chunk_size = 3`, `overlap = 0`,
the fallback path's first window is `"ab "`, stored stripped as `"ab"` with
span `(0, 3)`, so `end_char - start_char = 3 ≠ 2 = len(text)`. -/
theorem C1_chunker_wellformed_counterexample :
    ((simple_chunking defaultAnalyzers "ab c" 3 0).getD []).all
      (fun c => c.end_char - c.start_char == c.text.length) = false := by
  decide

/-- C2.  The claim as stated is false: `_get_overlap_sentences` walks the
sentence list from the front, so the carried sentences are a leading segment
of the just-emitted chunk's sentence list, not a trailing one (see the
counterexample).  Amended claim, proved here: the carried sentences are an
initial segment (they come from the start, not the end) of the just-emitted
chunk's sentence list, and when the joined chunk text does not itself fit in
the overlap budget their summed character length is at most `overlap`. -/
theorem C2_overlap_window_amended :
    ∀ (sentences : List String) (ov : Nat),
      (get_overlap_sentences sentences ov <+: sentences)
      ∧ (ov < (String.intercalate " " sentences).length →
          sumLens (get_overlap_sentences sentences ov) ≤ ov) := by
  intro sentences ov
  unfold get_overlap_sentences
  split
  · exact ⟨List.nil_prefix, fun _ => Nat.zero_le ov⟩
  · split
    · rename_i hfits
      exact ⟨List.prefix_refl _, fun hlt => absurd hfits (by omega)⟩
    · refine ⟨overlapTake_leading ov sentences 0, fun _ => ?_⟩
      have := overlapTake_sum ov sentences 0 (Nat.zero_le ov)
      omega

/-- C2 witness: the overlap window of `["ab", "cd"]` with budget 2 is an
initial segment whose summed length stays within the budget. -/
theorem C2_overlap_window_amended_witness :
    (get_overlap_sentences ["ab", "cd"] 2 <+: ["ab", "cd"])
    ∧ sumLens (get_overlap_sentences ["ab", "cd"] 2) ≤ 2 :=
  ⟨(C2_overlap_window_amended ["ab", "cd"] 2).1,
   (C2_overlap_window_amended ["ab", "cd"] 2).2 (by decide)⟩

/-- C2 counterexample: the sentences carried out of the emitted chunk
`["ab", "cd"]` with `overlap = 2` are `["ab"]` — a leading, not trailing,
segment — and in a full run on `"ab. cd. ef."` (`chunk_size = 5`,
`overlap = 2`) the second chunk is `"ab ef"`, seeded with the first chunk's
first sentence. -/
theorem C2_overlap_window_counterexample :
    get_overlap_sentences ["ab", "cd"] 2 = ["ab"]
    ∧ List.isSuffixOf (get_overlap_sentences ["ab", "cd"] 2) ["ab", "cd"] = false
    ∧ (create_enhanced_chunks defaultAnalyzers "ab. cd. ef." 5 2).map (·.text)
        = ["ab cd", "ab ef"] := by
  refine ⟨by decide, by decide, by decide⟩

/-- C4.  Confirmed.  The embedded chunker is a total (structurally recursive)
function, so it terminates on every input; moreover a single sentence longer
than `chunk_size` is still emitted as its own chunk (the `and current_chunk`
guard keeps the first sentence out of the emission branch), and a text that
is empty or whitespace-only cleans to the empty string, yielding the empty
chunk list. -/
theorem C4_chunker_termination_edges :
    ∀ (A : ChunkAnalyzers) (text : String) (csize ov : Nat) (s : String),
      (split_sentences (cleanTextS text) = [s] → csize < s.length →
        create_enhanced_chunks A text csize ov
          = [create_chunk_object A 0 s 0 s.length])
      ∧ ((∀ c ∈ text.data, isWs c = true) →
          create_enhanced_chunks A text csize ov = []) := by
  intro A text csize ov s
  constructor
  · intro hsent _
    unfold create_enhanced_chunks
    rw [hsent]
    have hint : String.intercalate " " [s] = s := rfl
    simp [chunkStep, chunkFinalize, hint]
  · intro hws
    unfold create_enhanced_chunks
    have hclean : cleanTextS text = "" := by
      unfold cleanTextS
      rw [clean_text_allWs text.data hws]
    rw [hclean]
    have hemp : split_sentences "" = [] := by decide
    rw [hemp]
    rfl

/-- C4 witness: the single sentence `"aaaaaa"` (length 6) with
`chunk_size = 3` is emitted as its own chunk, and the whitespace-only text
`" \t "` yields no chunks. -/
theorem C4_chunker_termination_edges_witness :
    (split_sentences (cleanTextS "aaaaaa") = ["aaaaaa"] ∧ 3 < ("aaaaaa" : String).length
      ∧ create_enhanced_chunks defaultAnalyzers "aaaaaa" 3 1
          = [create_chunk_object defaultAnalyzers 0 "aaaaaa" 0 6])
    ∧ ((∀ c ∈ (" \t " : String).data, isWs c = true)
      ∧ create_enhanced_chunks defaultAnalyzers " \t " 3 1 = []) := by
  refine ⟨⟨by decide, by decide, ?_⟩, by decide, ?_⟩
  · exact (C4_chunker_termination_edges defaultAnalyzers "aaaaaa" 3 1 "aaaaaa").1
      (by decide) (by decide)
  · exact (C4_chunker_termination_edges defaultAnalyzers " \t " 3 1 "").2 (by decide)

/-- C6.  Confirmed.  `_standard_processing` isolates field failures: the
model is a total function (the call never raises), a failed field is replaced
by its typed fallback (`title → "Untitled"`, `summary → "Summary not
available"`, list fields → `[]`), and a failure of the tags extraction alone
leaves the extracted title and summary intact with an empty tags list. -/
theorem C6_field_failure_isolation :
    ∀ (o : FieldOutcomes) (e tTitle tSummary : String),
      (o.title = .error e → (standard_processing o).title = "Untitled")
      ∧ (o.summary = .error e →
          (standard_processing o).summary = "Summary not available")
      ∧ (o.insights = .error e → (standard_processing o).insights = [])
      ∧ (o.tags = .error e → (standard_processing o).tags = [])
      ∧ (o.action_items = .error e → (standard_processing o).action_items = [])
      ∧ (o.quotable_snippets = .error e →
          (standard_processing o).quotable_snippets = [])
      ∧ (o.tags = .error e → o.title = .ok tTitle → o.summary = .ok tSummary →
          (standard_processing o).title = stripS tTitle
          ∧ (standard_processing o).summary = stripS tSummary
          ∧ (standard_processing o).tags = []) := by
  intro o e tTitle tSummary
  refine ⟨fun h => ?_, fun h => ?_, fun h => ?_, fun h => ?_, fun h => ?_,
    fun h => ?_, fun h h2 h3 => ⟨?_, ?_, ?_⟩⟩ <;>
    simp [standard_processing, extract_title, extract_summary, extract_insights,
      extract_tags, extract_action_items, extract_quotable_snippets, *]

/-- C6 witness: with the tags completion failing and every other field
succeeding, the result keeps the stripped title and summary and has an empty
tags list. -/
theorem C6_field_failure_isolation_witness :
    (standard_processing
        ⟨.ok " My Title ", .ok " A summary. ", .ok "- x", .error "quota",
          .ok "- y", .ok "none"⟩).title = stripS " My Title "
    ∧ (standard_processing
        ⟨.ok " My Title ", .ok " A summary. ", .ok "- x", .error "quota",
          .ok "- y", .ok "none"⟩).summary = stripS " A summary. "
    ∧ (standard_processing
        ⟨.ok " My Title ", .ok " A summary. ", .ok "- x", .error "quota",
          .ok "- y", .ok "none"⟩).tags = [] :=
  (C6_field_failure_isolation
    ⟨.ok " My Title ", .ok " A summary. ", .ok "- x", .error "quota",
      .ok "- y", .ok "none"⟩
    "quota" " My Title " " A summary. ").2.2.2.2.2.2 rfl rfl rfl

/-- C8.  The claim as stated is false: for a URL submission the first call
creates the document record under one fresh id (`job_id`) but returns the
enhanced pipeline's separate task id, while the duplicate short-circuit
returns the document record's id — so the two calls return different ids
(see the counterexample).  Amended claim, proved here: a second submission
of the same `(user, source_url)` pair while the existing document record is
pending short-circuits, returning the existing document record's id with no
state change (in particular no second document record). -/
theorem C8_duplicate_ingest_amended :
    ∀ (st : IngestState) (user : Nat) (u : String) (ex : DocRec),
      findExisting st user u = some ex →
      ex.processing_status = "pending" →
      ingest_content st user (some u)
        = (⟨ex.id, "pending", "Content is already being processed"⟩, st) := by
  intro st user u ex h hp
  unfold ingest_content
  dsimp only
  rw [h]
  simp [hp]

set_option maxRecDepth 4000

/-- C8 counterexample: starting from an empty store, the first submission of
`(7, "http://x")` returns job id `1` (the pipeline task id) while creating
document record `0`; the second submission returns job id `0` (the document
record's id), not `1`, and the store still holds exactly one document. -/
theorem C8_duplicate_ingest_counterexample :
    (ingest_content ⟨[], [], 0⟩ 7 (some "http://x")).1.job_id = 1
    ∧ (ingest_content ((ingest_content ⟨[], [], 0⟩ 7 (some "http://x")).2) 7
        (some "http://x")).1.job_id = 0
    ∧ (0 : Nat) < 1
    ∧ (ingest_content ((ingest_content ⟨[], [], 0⟩ 7 (some "http://x")).2) 7
        (some "http://x")).2.documents.length = 1 := by
  refine ⟨by decide, by decide, by decide, by decide⟩

/-- C8 witness: applying the amended theorem to the store produced by a first
submission. -/
theorem C8_duplicate_ingest_witness :
    ingest_content ⟨[⟨0, 7, some "http://x", "pending"⟩], [1], 2⟩ 7 (some "http://x")
      = (⟨0, "pending", "Content is already being processed"⟩,
         ⟨[⟨0, 7, some "http://x", "pending"⟩], [1], 2⟩) :=
  C8_duplicate_ingest_amended ⟨[⟨0, 7, some "http://x", "pending"⟩], [1], 2⟩ 7
    "http://x" ⟨0, 7, some "http://x", "pending"⟩ (by decide) rfl

/-- C9.  The claim is right about determinism (the fallback is a pure
function of the text: the model below is literally a function, so two calls
on the same text agree) and about the `[0,1]` range (each entry is a digest
byte divided by 255), but the code's vector length is wrong: an MD5 digest
has 16 bytes, not 32, so `[b/255 for b in digest] * 48` has `16 × 48 = 768`
entries and the trailing `[:1536]` is a no-op — contradicting the code's own
comments `(1536 dimensions)` and `# 32 * 48 = 1536`.  The first conjunct
checks the embedded MD5 against the standard digest of `"hello"`. -/
theorem C9_fallback_embedding_dimension_bug :
    md5 (asciiBytes "hello")
      = [93, 65, 64, 42, 188, 75, 42, 118, 185, 113, 157, 145, 16, 23, 197, 146]
    ∧ (fallback_embedding (asciiBytes "hello")).length = 768
    ∧ (768 : Nat) < 1536 := by
  refine ⟨by decide, by decide, by decide⟩

/-- C10.  Confirmed.  The metrics start at zero; `_complete_task` increments
`total_processed` and `successful` together and `_handle_task_error`
increments `total_processed` and `failed` together, so after any sequence of
these state-changing operations `total_processed = successful + failed` and
the derived success rate equals `successful / (successful + failed)`. -/
theorem C10_metrics_invariant :
    ∀ (ops : List MetricsOp),
      (runMetrics ops).total_processed
          = (runMetrics ops).successful + (runMetrics ops).failed
      ∧ success_rate (runMetrics ops)
          = ((runMetrics ops).successful : ℚ)
            / (((runMetrics ops).successful : ℚ) + ((runMetrics ops).failed : ℚ)) := by
  have key : ∀ (l : List MetricsOp) (m : Metrics),
      m.total_processed = m.successful + m.failed →
      (l.foldl applyMetricsOp m).total_processed
        = (l.foldl applyMetricsOp m).successful + (l.foldl applyMetricsOp m).failed := by
    intro l
    induction l with
    | nil => intro m h; exact h
    | cons op t ih =>
      intro m h
      cases op with
      | complete dt =>
        apply ih
        simp [applyMetricsOp, metricsComplete]
        omega
      | fail =>
        apply ih
        simp [applyMetricsOp, metricsFail]
        omega
  intro ops
  have inv : (runMetrics ops).total_processed
      = (runMetrics ops).successful + (runMetrics ops).failed :=
    key ops initMetrics (by simp [initMetrics])
  refine ⟨inv, ?_⟩
  unfold success_rate
  split
  · rw [inv]
    push_cast
    ring
  · rename_i hzero
    have hs : (runMetrics ops).successful = 0 := by omega
    have hf : (runMetrics ops).failed = 0 := by omega
    rw [hs, hf]
    simp

/-! ## Helper lemmas for the hybrid-search claim -/

theorem find?_id_map (acc : List SearchDoc) (f : SearchDoc → SearchDoc)
    (hid : ∀ e, (f e).id = e.id) (did : Nat) :
    List.find? (fun e => e.id == did) (acc.map f)
      = (List.find? (fun e => e.id == did) acc).map f := by
  induction acc with
  | nil => rfl
  | cons e t ih =>
    simp only [List.map_cons, List.find?_cons, hid e]
    cases h : (e.id == did) <;> simp [h, ih]

theorem lookupScore_upsert_ne (ph : Nat) (acc : List SearchDoc) (d : SearchDoc)
    (did : Nat) (h : (d.id == did) = false) :
    lookupScore (upsertDoc ph acc d) did = lookupScore acc did := by
  unfold upsertDoc
  split
  · unfold lookupScore
    rw [find?_id_map]
    · cases hf : List.find? (fun e => e.id == did) acc with
      | none => simp
      | some e0 =>
        have hp := List.find?_some hf
        have hne : ¬ (e0.id = d.id) := by
          simp only [beq_iff_eq] at hp
          simp only [beq_eq_false_iff_ne, ne_eq] at h
          omega
        simp [hne]
    · intro e
      by_cases he : e.id = d.id <;> simp [he]
  · unfold lookupScore
    rw [List.find?_append]
    cases hf : List.find? (fun e => e.id == did) acc with
    | none => simp [List.find?, h]
    | some e0 => simp

theorem lookupScore_upsert_hit (ph : Nat) (acc : List SearchDoc) (d : SearchDoc)
    (did : Nat) (s : ℚ) (hph : (ph == 0) = false) (hd : d.id = did)
    (h : lookupScore acc did = some s) :
    lookupScore (upsertDoc ph acc d) did
      = some (s * (6/10) + d.relevance_score * (4/10)) := by
  obtain ⟨e0, hf, he0⟩ := Option.map_eq_some'.mp h
  have hp := List.find?_some hf
  have hany : acc.any (fun e => e.id == d.id) = true := by
    rw [List.any_eq_true]
    refine ⟨e0, List.mem_of_find?_eq_some hf, ?_⟩
    simp only [beq_iff_eq] at hp ⊢
    omega
  unfold upsertDoc
  rw [if_pos hany]
  unfold lookupScore
  rw [find?_id_map]
  · rw [hf]
    have he : e0.id = d.id := by
      simp only [beq_iff_eq] at hp
      omega
    have hph2 : ¬ (ph = 0) := by simpa using hph
    simp [he, hph2, he0]
  · intro e
    by_cases he : e.id = d.id <;> simp [he]

theorem lookupScore_phase_ne (ph : Nat) (did : Nat) :
    ∀ (docs : List SearchDoc) (acc : List SearchDoc),
      (∀ d ∈ docs, (d.id == did) = false) →
      lookupScore (mergePhase ph acc docs) did = lookupScore acc did := by
  intro docs
  induction docs with
  | nil => intro acc _; rfl
  | cons d t ih =>
    intro acc h
    unfold mergePhase at ih ⊢
    rw [List.foldl_cons, ih _ (fun x hx => h x (by simp [hx]))]
    exact lookupScore_upsert_ne ph acc d did (h d (by simp))

theorem lookupScore_phase_insert (did : Nat) (s : ℚ) :
    ∀ (docs : List SearchDoc) (acc : List SearchDoc),
      docs.filter (fun d => d.id == did) = [⟨did, s⟩] →
      lookupScore acc did = none →
      lookupScore (mergePhase 0 acc docs) did = some s := by
  intro docs
  induction docs with
  | nil => intro acc hf _; simp at hf
  | cons d t ih =>
    intro acc hf hnone
    rw [List.filter_cons] at hf
    by_cases hd : (d.id == did) = true
    · rw [if_pos hd] at hf
      obtain ⟨hd0, ht⟩ := List.cons_eq_cons.mp hf
      have hnot : ∀ x ∈ t, (x.id == did) = false := by
        intro x hx
        have := List.filter_eq_nil_iff.mp ht x hx
        simpa using this
      unfold mergePhase
      rw [List.foldl_cons]
      have hstep : lookupScore (upsertDoc 0 acc d) did = some s := by
        have hanyF : acc.any (fun e => e.id == d.id) = false := by
          rw [Bool.eq_false_iff]
          intro hany
          obtain ⟨e0, he0m, he0p⟩ := List.any_eq_true.mp hany
          have : (e0.id == did) = true := by
            simp only [beq_iff_eq] at hd he0p ⊢
            omega
          have := List.find?_eq_none.mp (by
            unfold lookupScore at hnone
            cases hfind : List.find? (fun e => e.id == did) acc with
            | none => rfl
            | some x => rw [hfind] at hnone; simp at hnone) e0 he0m
          exact this ‹(e0.id == did) = true›
        unfold upsertDoc
        rw [if_neg (by simp [hanyF])]
        unfold lookupScore
        rw [List.find?_append]
        unfold lookupScore at hnone
        cases hfind : List.find? (fun e => e.id == did) acc with
        | none => rw [hd0]; simp [List.find?]
        | some x => rw [hfind] at hnone; simp at hnone
      exact (lookupScore_phase_ne 0 did t (upsertDoc 0 acc d) hnot).trans hstep
    · rw [if_neg hd] at hf
      unfold mergePhase
      rw [List.foldl_cons]
      exact ih (upsertDoc 0 acc d)
        hf
        ((lookupScore_upsert_ne 0 acc d did (by simpa using hd)).trans hnone)

theorem lookupScore_phase_update (did : Nat) (s k : ℚ) :
    ∀ (docs : List SearchDoc) (acc : List SearchDoc),
      docs.filter (fun d => d.id == did) = [⟨did, k⟩] →
      lookupScore acc did = some s →
      lookupScore (mergePhase 1 acc docs) did = some (s * (6/10) + k * (4/10)) := by
  intro docs
  induction docs with
  | nil => intro acc hf _; simp at hf
  | cons d t ih =>
    intro acc hf hsome
    rw [List.filter_cons] at hf
    by_cases hd : (d.id == did) = true
    · rw [if_pos hd] at hf
      obtain ⟨hd0, ht⟩ := List.cons_eq_cons.mp hf
      have hnot : ∀ x ∈ t, (x.id == did) = false := by
        intro x hx
        have := List.filter_eq_nil_iff.mp ht x hx
        simpa using this
      unfold mergePhase
      rw [List.foldl_cons]
      have hstep := lookupScore_upsert_hit 1 acc d did s (by decide)
        (by simpa using hd) hsome
      rw [hd0] at hstep ⊢
      exact (lookupScore_phase_ne 1 did t (upsertDoc 1 acc ⟨did, k⟩) hnot).trans hstep
    · rw [if_neg hd] at hf
      unfold mergePhase
      rw [List.foldl_cons]
      exact ih (upsertDoc 1 acc d) hf
        ((lookupScore_upsert_ne 1 acc d did (by simpa using hd)).trans hsome)

theorem upsert_nodup (ph : Nat) (acc : List SearchDoc) (d : SearchDoc)
    (h : (acc.map (·.id)).Nodup) : ((upsertDoc ph acc d).map (·.id)).Nodup := by
  unfold upsertDoc
  split
  · have : ((acc.map fun e =>
        if (e.id == d.id) = true then
          { e with relevance_score :=
              if (ph == 0) = true then e.relevance_score * (3/10) + d.relevance_score * (7/10)
              else e.relevance_score * (6/10) + d.relevance_score * (4/10) }
        else e).map (·.id)) = acc.map (·.id) := by
      rw [List.map_map]
      apply List.map_congr_left
      intro e _
      by_cases he : e.id = d.id <;> simp [he]
    rw [this]
    exact h
  · rename_i hany
    rw [List.map_append, List.nodup_append]
    refine ⟨h, by simp, ?_⟩
    intro x hx
    simp only [List.map_cons, List.map_nil, List.mem_singleton]
    intro hxd
    obtain ⟨e, hem, heid⟩ := List.mem_map.mp hx
    apply hany
    rw [List.any_eq_true]
    exact ⟨e, hem, by simp [heid, hxd]⟩

theorem phase_nodup (ph : Nat) :
    ∀ (docs acc : List SearchDoc), (acc.map (·.id)).Nodup →
      ((mergePhase ph acc docs).map (·.id)).Nodup := by
  intro docs
  induction docs with
  | nil => intro acc h; exact h
  | cons d t ih =>
    intro acc h
    unfold mergePhase at ih ⊢
    rw [List.foldl_cons]
    exact ih _ (upsert_nodup ph acc d h)

theorem mergeAll_nodup (sem kw tag : List SearchDoc) :
    ((mergeAll sem kw tag).map (·.id)).Nodup :=
  phase_nodup 2 tag _ (phase_nodup 1 kw _ (phase_nodup 0 sem [] (by simp)))

theorem insertDesc_perm (d : SearchDoc) :
    ∀ (l : List SearchDoc), (insertDesc d l).Perm (d :: l) := by
  intro l
  induction l with
  | nil => exact List.Perm.refl _
  | cons e t ih =>
    unfold insertDesc
    split
    · exact List.Perm.refl _
    · exact (ih.cons e).trans (List.Perm.swap d e t)

theorem sortDesc_perm (l : List SearchDoc) : (sortDesc l).Perm l := by
  have key : ∀ (t acc : List SearchDoc),
      (List.foldl (fun acc d => insertDesc d acc) acc t).Perm (acc ++ t) := by
    intro t
    induction t with
    | nil => intro acc; simp
    | cons d t' ih =>
      intro acc
      rw [List.foldl_cons]
      refine (ih (insertDesc d acc)).trans ?_
      refine (((insertDesc_perm d acc).append_right t')).trans ?_
      exact (List.perm_middle).symm
  simpa using key l []

theorem insertDesc_sorted (d : SearchDoc) :
    ∀ (l : List SearchDoc),
      List.Sorted (fun a b => b.relevance_score ≤ a.relevance_score) l →
      List.Sorted (fun a b => b.relevance_score ≤ a.relevance_score) (insertDesc d l) := by
  intro l
  induction l with
  | nil => intro _; simp [insertDesc]
  | cons e t ih =>
    intro h
    obtain ⟨h1, h2⟩ := List.sorted_cons.mp h
    unfold insertDesc
    split
    · rename_i hlt
      rw [List.sorted_cons]
      refine ⟨?_, h⟩
      intro b hb
      rcases List.mem_cons.mp hb with rfl | hbt
      · exact le_of_lt hlt
      · exact (h1 b hbt).trans (le_of_lt hlt)
    · rename_i hge
      rw [List.sorted_cons]
      refine ⟨?_, ih h2⟩
      intro b hb
      have hb2 : b ∈ d :: t := (insertDesc_perm d t).mem_iff.mp hb
      rcases List.mem_cons.mp hb2 with rfl | hbt
      · exact le_of_not_lt hge
      · exact h1 b hbt

theorem sortDesc_sorted (l : List SearchDoc) :
    List.Sorted (fun a b => b.relevance_score ≤ a.relevance_score) (sortDesc l) := by
  have key : ∀ (t acc : List SearchDoc),
      List.Sorted (fun a b => b.relevance_score ≤ a.relevance_score) acc →
      List.Sorted (fun a b => b.relevance_score ≤ a.relevance_score)
        (List.foldl (fun acc d => insertDesc d acc) acc t) := by
    intro t
    induction t with
    | nil => intro acc h; exact h
    | cons d t' ih =>
      intro acc h
      rw [List.foldl_cons]
      exact ih _ (insertDesc_sorted d acc h)
  exact key l [] (by simp)

/-- C7.  The claim as stated is false: the merge loop scans the semantic
results first, so a document present in both the semantic and keyword result
sets is always combined by the non-semantic branch, giving
`0.6*s + 0.4*k` (the `0.3/0.7` branch is only reachable for a duplicate id
within a later scan of the semantic list itself), and `s = 0.9, k = 0.5`
yields `0.74`, not `0.78` (see the counterexample).  Amended claim, proved
here: for a document appearing exactly once in the semantic results (score
`s`), exactly once in the keyword results (score `k`) and not in the tag
results, the merged per-document score is `0.6*s + 0.4*k`; results are
deduplicated by document id; and the final list is sorted by combined score
in descending order. -/
theorem C7_hybrid_merge_amended :
    ∀ (sem kw tag : List SearchDoc) (did : Nat) (s k : ℚ) (limit : Nat),
      (sem.filter (fun d => d.id == did) = [⟨did, s⟩] →
        kw.filter (fun d => d.id == did) = [⟨did, k⟩] →
        tag.filter (fun d => d.id == did) = [] →
        lookupScore (mergeAll sem kw tag) did = some (s * (6/10) + k * (4/10)))
      ∧ ((hybrid_search sem kw tag limit).map (·.id)).Nodup
      ∧ List.Sorted (fun a b => b.relevance_score ≤ a.relevance_score)
          (hybrid_search sem kw tag limit) := by
  intro sem kw tag did s k limit
  refine ⟨?_, ?_, ?_⟩
  · intro hs hk ht
    unfold mergeAll
    rw [lookupScore_phase_ne 2 did tag _ (fun d hd => by
      simpa using List.filter_eq_nil_iff.mp ht d hd)]
    exact lookupScore_phase_update did s k kw _ hk
      (lookupScore_phase_insert did s sem [] hs rfl)
  · unfold hybrid_search
    have h1 := mergeAll_nodup sem kw tag
    have h2 : ((sortDesc (mergeAll sem kw tag)).map (·.id)).Nodup :=
      h1.perm ((sortDesc_perm (mergeAll sem kw tag)).map (·.id)).symm
    rw [List.map_take]
    exact List.Nodup.sublist (List.take_sublist _ _) h2
  · unfold hybrid_search
    exact List.Pairwise.sublist (List.take_sublist _ _) (sortDesc_sorted _)

/-- C7 counterexample: with the document present in the semantic results at
score `0.9` and in the keyword results at score `0.5`, the merged score is
`0.6*0.9 + 0.4*0.5 = 0.74`, not the claimed `0.7*0.9 + 0.3*0.5 = 0.78`. -/
theorem C7_hybrid_merge_counterexample :
    lookupScore (mergeAll [⟨1, 9/10⟩] [⟨1, 5/10⟩] []) 1 = some (37/50)
    ∧ (9/10 : ℚ) * (7/10) + (5/10) * (3/10) = 39/50
    ∧ (37/50 : ℚ) < 39/50 := by
  refine ⟨?_, by norm_num, by norm_num⟩
  have h := (C7_hybrid_merge_amended [⟨1, 9/10⟩] [⟨1, 5/10⟩] [] 1 (9/10) (5/10) 1).1
    (by simp [List.filter]) (by simp [List.filter]) rfl
  rw [h]
  norm_num

/-- C7 witness: the amended combination applied at the same concrete input. -/
theorem C7_hybrid_merge_witness :
    lookupScore (mergeAll [⟨1, 9/10⟩] [⟨1, 1/2⟩] []) 1
      = some ((9/10 : ℚ) * (6/10) + (1/2) * (4/10)) :=
  (C7_hybrid_merge_amended [⟨1, 9/10⟩] [⟨1, 1/2⟩] [] 1 (9/10) (1/2) 1).1
    (by simp [List.filter]) (by simp [List.filter]) rfl

/-! ## Helper lemmas for the pipeline claim -/

theorem with_retry_eq {α : Type} (op : Nat → Except String α) (wrap : String → String) :
    with_retry op wrap =
      match op 0 with
      | .ok v => .ok v
      | .error _ =>
        match op 1 with
        | .ok v => .ok v
        | .error _ =>
          match op 2 with
          | .ok v => .ok v
          | .error _ =>
            match op 3 with
            | .ok v => .ok v
            | .error e => .error (wrap e) := by
  show retryLoop op wrap 4 0 = _
  cases h0 : op 0 <;> cases h1 : op 1 <;> cases h2 : op 2 <;> cases h3 : op 3 <;>
    simp [retryLoop, h0, h1, h2, h3]

theorem wrapMsg_ne_empty (a e : String) : wrapMsg a e ≠ "" := by
  intro h
  have hl := congrArg String.length h
  have h10 : ("Failed to " : String).length = 10 := rfl
  have hz : ("" : String).length = 0 := rfl
  simp only [wrapMsg, String.length_append] at hl
  omega

/-- C5.  Confirmed.  If the embedding-generation stage operation fails on
every attempt of the retry budget (with all earlier stages succeeding), the
task ends with `status = failed` and `stage = embedding_generation`, the last
error is recorded on the task embedded verbatim in the wrapper message
`"Failed to generate embeddings after 4 attempts: <err>"`, the
database-storage stage is never entered, and no document row (in particular
none with `processing_status = "completed"`) is written. -/
theorem C5_embedding_stage_failure :
    ∀ (o : StageOutcomes) (dt : ℚ) (c : String) (msgs : Nat → String),
      o.extract 0 = .ok c →
      c.isEmpty = false →
      50 ≤ (strip c.data).length →
      o.textProc 0 = .ok () →
      o.aiProc 0 = .ok () →
      (∀ j, j ≤ maxRetries → o.embedProc j = .error (msgs j)) →
      process_task o dt =
        { task := { status := .failed, stage := .embedding_generation,
                    progress := 8/10,
                    errorMessage := some (wrapMsg "generate embeddings" (msgs 3)) }
          stagesEntered := [.content_extraction, .text_processing, .ai_analysis,
                            .embedding_generation]
          docWrites := []
          metrics := { total_processed := 1, successful := 0, failed := 1,
                       total_processing_time := 0 } } := by
  intro o dt c msgs hex hne hlen htp hai hemb
  have h0 := hemb 0 (by simp [maxRetries])
  have h1 := hemb 1 (by simp [maxRetries])
  have h2 := hemb 2 (by simp [maxRetries])
  have h3 := hemb 3 (by simp [maxRetries])
  have hnlt : ¬ ((strip c.data).length < 50) := by omega
  have e1 : with_retry (extractOp o) (wrapMsg "extract content") = .ok c := by
    rw [with_retry_eq]
    simp [extractOp, hex, hne, hnlt]
  have e2 : with_retry o.textProc (wrapMsg "process text") = .ok () := by
    rw [with_retry_eq]
    simp [htp]
  have e3 : with_retry o.aiProc (wrapMsg "analyze with AI") = .ok () := by
    rw [with_retry_eq]
    simp [hai]
  have e4 : with_retry o.embedProc (wrapMsg "generate embeddings")
      = .error (wrapMsg "generate embeddings" (msgs 3)) := by
    rw [with_retry_eq]
    simp [h0, h1, h2, h3]
  have hwrap : ¬ (wrapMsg "generate embeddings" (msgs 3) = "") :=
    wrapMsg_ne_empty _ _
  unfold process_task
  rw [e1]
  dsimp only
  rw [e2]
  dsimp only
  rw [e3]
  dsimp only
  rw [e4]
  simp [handle_task_error, enterStage, update_status, metricsFail, initMetrics,
    initialTask, hwrap]

/-- C5 witness: a concrete oracle whose embedding stage always fails with
`"boom"` while the earlier stages succeed on their first attempt. -/
theorem C5_embedding_stage_failure_witness :
    process_task
      ⟨fun _ => .ok (String.mk (List.replicate 50 'a')), fun _ => .ok (),
        fun _ => .ok (), fun _ => .error "boom", fun _ => .ok ()⟩ 0 =
      { task := { status := .failed, stage := .embedding_generation,
                  progress := 8/10,
                  errorMessage := some (wrapMsg "generate embeddings" "boom") }
        stagesEntered := [.content_extraction, .text_processing, .ai_analysis,
                          .embedding_generation]
        docWrites := []
        metrics := { total_processed := 1, successful := 0, failed := 1,
                     total_processing_time := 0 } } :=
  C5_embedding_stage_failure
    ⟨fun _ => .ok (String.mk (List.replicate 50 'a')), fun _ => .ok (),
      fun _ => .ok (), fun _ => .error "boom", fun _ => .ok ()⟩ 0
    (String.mk (List.replicate 50 'a')) (fun _ => "boom")
    rfl (by decide) (by decide) rfl rfl (fun _ _ => rfl)

/-! ## Helper lemmas for the normalizer claim -/

theorem collapseWs_cons_not {b : Char} {t : List Char} (h : isWs b = false) :
    collapseWs (b :: t) = b :: collapseWs t := by
  cases t <;> simp [collapseWs, h]

theorem collapseWs_noTwo (l : List Char) : noTwo isWs (collapseWs l) := by
  unfold noTwo
  induction l using collapseWs.induct with
  | case1 => simp [collapseWs]
  | case2 c h => simp [collapseWs, h]
  | case3 c h => simp [collapseWs, h]
  | case4 a b t ha hb ih => simpa [collapseWs, ha, hb] using ih
  | case5 a b t ha hb ih =>
    have hb' : isWs b = false := by simpa using hb
    rw [show collapseWs (a :: b :: t) = ' ' :: collapseWs (b :: t) by
      simp [collapseWs, ha, hb']]
    rw [collapseWs_cons_not hb'] at ih ⊢
    rw [List.chain'_cons]
    exact ⟨by simp [hb'], ih⟩
  | case6 a b t ha ih =>
    have ha' : isWs a = false := by simpa using ha
    rw [show collapseWs (a :: b :: t) = a :: collapseWs (b :: t) by
      simp [collapseWs, ha']]
    rw [List.chain'_cons']
    exact ⟨fun y _ => by simp [ha'], ih⟩

theorem collapseWs_mem (l : List Char) :
    ∀ c ∈ collapseWs l, c = ' ' ∨ (c ∈ l ∧ isWs c = false) := by
  induction l using collapseWs.induct with
  | case1 => simp [collapseWs]
  | case2 c h => simp [collapseWs, h]
  | case3 c h =>
    intro c' hc'
    simp [collapseWs, h] at hc'
    subst hc'
    exact Or.inr ⟨by simp, by simpa using h⟩
  | case4 a b t ha hb ih =>
    intro c' hc'
    rw [show collapseWs (a :: b :: t) = collapseWs (b :: t) by simp [collapseWs, ha, hb]] at hc'
    rcases ih c' hc' with h | ⟨hm, hw⟩
    · exact Or.inl h
    · exact Or.inr ⟨by simp [List.mem_cons.mp hm], hw⟩
  | case5 a b t ha hb ih =>
    intro c' hc'
    have hb' : isWs b = false := by simpa using hb
    rw [show collapseWs (a :: b :: t) = ' ' :: collapseWs (b :: t) by
      simp [collapseWs, ha, hb']] at hc'
    rcases List.mem_cons.mp hc' with rfl | hc'
    · exact Or.inl rfl
    · rcases ih c' hc' with h | ⟨hm, hw⟩
      · exact Or.inl h
      · exact Or.inr ⟨by simp [List.mem_cons.mp hm], hw⟩
  | case6 a b t ha ih =>
    intro c' hc'
    have ha' : isWs a = false := by simpa using ha
    rw [show collapseWs (a :: b :: t) = a :: collapseWs (b :: t) by
      simp [collapseWs, ha']] at hc'
    rcases List.mem_cons.mp hc' with rfl | hc'
    · exact Or.inr ⟨by simp, ha'⟩
    · rcases ih c' hc' with h | ⟨hm, hw⟩
      · exact Or.inl h
      · exact Or.inr ⟨by simp [List.mem_cons.mp hm], hw⟩

theorem collapseWs_space (l : List Char) : wsOnlySpace (collapseWs l) := by
  intro c hc hw
  rcases collapseWs_mem l c hc with h | ⟨_, hnw⟩
  · exact h
  · rw [hw] at hnw
    cases hnw

theorem collapseWs_eq_self :
    ∀ (l : List Char), noTwo isWs l → wsOnlySpace l → collapseWs l = l := by
  intro l
  induction l using collapseWs.induct with
  | case1 => intro _ _; rfl
  | case2 c h =>
    intro _ hsp
    have := hsp c (by simp) h
    simp [collapseWs, h, this]
  | case3 c h => intro _ _; simp [collapseWs, h]
  | case4 a b t ha hb ih =>
    intro hch _
    exfalso
    have := (List.chain'_cons.mp hch).1
    exact this ⟨ha, hb⟩
  | case5 a b t ha hb ih =>
    intro hch hsp
    have hb' : isWs b = false := by simpa using hb
    have ha' : a = ' ' := hsp a (by simp) ha
    rw [show collapseWs (a :: b :: t) = ' ' :: collapseWs (b :: t) by
      simp [collapseWs, ha, hb']]
    rw [ih (List.chain'_cons.mp hch).2 (fun c hc hw => hsp c (by simp [hc]) hw), ha']
  | case6 a b t ha ih =>
    intro hch hsp
    have ha' : isWs a = false := by simpa using ha
    rw [show collapseWs (a :: b :: t) = a :: collapseWs (b :: t) by
      simp [collapseWs, ha']]
    rw [ih (List.chain'_cons.mp hch).2 (fun c hc hw => hsp c (by simp [hc]) hw)]

theorem paraCollapseAux_eq_of_noNl :
    ∀ (f : Nat) (l : List Char), '\n' ∉ l → paraCollapseAux f l = l := by
  intro f
  induction f with
  | zero => intro l _; cases l <;> rfl
  | succ f ih =>
    intro l h
    cases l with
    | nil => rfl
    | cons c t =>
      have hc : ¬ (c == '\n') = true := by
        simp only [beq_iff_eq]
        intro hh
        exact h (by simp [hh])
      unfold paraCollapseAux
      rw [if_neg hc, ih t (fun hm => h (by simp [hm]))]

theorem paraCollapse_eq_of_noNl (l : List Char) (h : '\n' ∉ l) :
    paraCollapse l = l :=
  paraCollapseAux_eq_of_noNl l.length l h

theorem substAux_self (pat : List Char) (hp : pat ≠ []) :
    ∀ (f : Nat) (l : List Char), l.length ≤ f →
      substAux false pat pat f l = l := by
  intro f
  induction f with
  | zero =>
    intro l hl
    have : l = [] := List.length_eq_zero.mp (Nat.le_zero.mp hl)
    subst this
    rfl
  | succ f ih =>
    intro l hl
    cases l with
    | nil => rfl
    | cons c t =>
      unfold substAux
      split
      · rename_i hmatch
        have hlow : low false = fun c : Char => c := funext fun _ => rfl
        have htake : (c :: t).take pat.length = pat := by
          have h2 := hmatch
          rw [patHere, hlow, List.map_id', List.map_id', beq_iff_eq] at h2
          exact h2
        have hlen : 1 ≤ pat.length := by
          cases pat with
          | nil => exact absurd rfl hp
          | cons _ _ => simp
        have hdrop : ((c :: t).drop pat.length).length ≤ f := by
          have h5 : ((c :: t).drop pat.length).length = (c :: t).length - pat.length :=
            List.length_drop _ _
          have h6 : (c :: t).length = t.length + 1 := by simp
          have h7 : t.length + 1 ≤ f + 1 := by simpa using hl
          rw [h5, h6]
          omega
        rw [ih _ hdrop]
        conv_rhs => rw [← List.take_append_drop pat.length (c :: t)]
        rw [htake]
      · rw [ih t (by simp at hl; omega)]

theorem subst_self (pat : List Char) (hp : pat ≠ []) (l : List Char) :
    subst false pat pat l = l :=
  substAux_self pat hp l.length l (le_refl _)

theorem dqSubst_eq (l : List Char) : dqSubst l = l := by
  unfold dqSubst
  rw [subst_self _ (by simp), subst_self _ (by simp)]

theorem replaceChar_mem (a b : Char) (l : List Char) :
    ∀ c ∈ replaceChar a b l, c = b ∨ (c ∈ l ∧ ¬ c = a) := by
  intro c hc
  obtain ⟨x, hx, hfx⟩ := List.mem_map.mp hc
  by_cases hxa : x = a
  · simp [hxa] at hfx
    exact Or.inl hfx.symm
  · rw [if_neg (by simpa using hxa)] at hfx
    subst hfx
    exact Or.inr ⟨hx, hxa⟩

theorem replaceChar_not_mem (a b : Char) (l : List Char) (hab : ¬ b = a) :
    a ∉ replaceChar a b l := by
  intro hmem
  rcases replaceChar_mem a b l a hmem with h | ⟨_, h⟩
  · exact hab h.symm
  · exact h rfl

theorem replaceChar_id (a b : Char) (l : List Char) (h : a ∉ l) :
    replaceChar a b l = l := by
  unfold replaceChar
  have : ∀ x ∈ l, (if x == a then b else x) = id x := by
    intro x hx
    have : ¬ x = a := fun hxa => h (hxa ▸ hx)
    simp [this]
  rw [List.map_congr_left this, List.map_id]

theorem replaceChar_chain (a b : Char) (l : List Char) (q : Char → Bool)
    (hq : q b = q a) (h : noTwo q l) : noTwo q (replaceChar a b l) := by
  unfold noTwo replaceChar
  rw [List.chain'_map]
  unfold noTwo at h
  refine List.Chain'.imp ?_ h
  intro x y hxy hcon
  apply hxy
  have hfx : q (if x == a then b else x) = q x := by
    by_cases hx : x = a <;> simp [hx, hq]
  have hfy : q (if y == a then b else y) = q y := by
    by_cases hy : y = a <;> simp [hy, hq]
  constructor
  · rw [← hfx]
    exact hcon.1
  · rw [← hfy]
    exact hcon.2

theorem dropWhile_head_not {p : Char → Bool} {l : List Char} {c : Char}
    {t : List Char} (h : l.dropWhile p = c :: t) : p c = false := by
  have hh := List.head?_dropWhile_not p l
  rw [h] at hh
  exact hh

theorem dropWhile_eq_self_of_head {p : Char → Bool} {l : List Char}
    (h : ∀ c t, l = c :: t → p c = false) : l.dropWhile p = l := by
  cases l with
  | nil => rfl
  | cons c t => simp [List.dropWhile_cons, h c t rfl]

theorem strip_isInfixOf (l : List Char) : strip l <:+: l := by
  have h1 : l.dropWhile isWs <:+ l := List.dropWhile_suffix isWs
  have h2 : (l.dropWhile isWs).reverse.dropWhile isWs <:+ (l.dropWhile isWs).reverse :=
    List.dropWhile_suffix isWs
  have h3 : strip l <+: l.dropWhile isWs := by
    rw [← List.reverse_reverse (l.dropWhile isWs)]
    exact List.reverse_prefix.mpr h2
  exact h3.isInfix.trans h1.isInfix

theorem strip_head_not (l : List Char) {c : Char} {t : List Char}
    (h : strip l = c :: t) : isWs c = false := by
  have hsub : strip l <+: l.dropWhile isWs := by
    rw [← List.reverse_reverse (l.dropWhile isWs)]
    exact List.reverse_prefix.mpr (List.dropWhile_suffix isWs)
  obtain ⟨r, hr⟩ := hsub
  rw [h] at hr
  rcases he : l.dropWhile isWs with _ | ⟨e, t2⟩
  · rw [he] at hr
    cases hr
  · rw [he, List.cons_append] at hr
    have hce : c = e := (List.cons_eq_cons.mp hr).1
    rw [hce]
    exact dropWhile_head_not he

theorem strip_rev_head_not (l : List Char) {c : Char} {t : List Char}
    (h : (strip l).reverse = c :: t) : isWs c = false := by
  unfold strip at h
  rw [List.reverse_reverse] at h
  exact dropWhile_head_not h

theorem strip_strip (l : List Char) : strip (strip l) = strip l := by
  have h1 : (strip l).dropWhile isWs = strip l :=
    dropWhile_eq_self_of_head (fun c t hct => strip_head_not l hct)
  have h2 : (strip l).reverse.dropWhile isWs = (strip l).reverse :=
    dropWhile_eq_self_of_head (fun c t hct => strip_rev_head_not l hct)
  show ((((strip l).dropWhile isWs).reverse.dropWhile isWs).reverse) = strip l
  rw [h1, h2, List.reverse_reverse]

theorem cr_true_eq (p : Char → Bool) (rep : Char) :
    ∀ (l : List Char),
      collapseRunsAux p rep true l = collapseRunsAux p rep false (l.dropWhile p) := by
  intro l
  induction l with
  | nil => rfl
  | cons c t ih =>
    by_cases hc : p c = true
    · rw [show collapseRunsAux p rep true (c :: t) = collapseRunsAux p rep true t by
        simp [collapseRunsAux, hc]]
      rw [ih, List.dropWhile_cons, if_pos hc]
    · have hc' : p c = false := by simpa using hc
      rw [show collapseRunsAux p rep true (c :: t)
          = c :: collapseRunsAux p rep false t by simp [collapseRunsAux, hc']]
      rw [List.dropWhile_cons, if_neg (by simp [hc'])]
      cases t with
      | nil => rfl
      | cons d t2 =>
        by_cases hcd : (p c && p d) = true
        · rw [hc'] at hcd
          simp at hcd
        · simp [collapseRunsAux, hcd]

theorem cr_false_head_cases (p : Char → Bool) (rep : Char) (l : List Char) :
    collapseRunsAux p rep false l = []
    ∨ (∃ t', collapseRunsAux p rep false l = rep :: t'
        ∧ ∃ a b t2, l = a :: b :: t2 ∧ (p a && p b) = true)
    ∨ (∃ c t', collapseRunsAux p rep false l = c :: t' ∧ l.head? = some c) := by
  cases l with
  | nil => exact Or.inl rfl
  | cons c t =>
    cases t with
    | nil => exact Or.inr (Or.inr ⟨c, [], rfl, rfl⟩)
    | cons d t2 =>
      by_cases hcd : (p c && p d) = true
      · exact Or.inr (Or.inl ⟨collapseRunsAux p rep true (d :: t2),
          by simp [collapseRunsAux, hcd], c, d, t2, rfl, hcd⟩)
      · exact Or.inr (Or.inr ⟨c, collapseRunsAux p rep false (d :: t2),
          by simp [collapseRunsAux, hcd], rfl⟩)

theorem cr_mem (p : Char → Bool) (rep : Char) :
    ∀ (flag : Bool) (l : List Char) (c' : Char),
      c' ∈ collapseRunsAux p rep flag l → c' = rep ∨ c' ∈ l := by
  intro flag l
  induction flag, l using collapseRunsAux.induct p rep with
  | case1 fl => intro c' hc'; simp [collapseRunsAux] at hc'
  | case2 c t hc ih =>
    intro c' hc'
    rw [show collapseRunsAux p rep true (c :: t) = collapseRunsAux p rep true t by
      simp [collapseRunsAux, hc]] at hc'
    rcases ih c' hc' with h | h
    · exact Or.inl h
    · exact Or.inr (by simp [h])
  | case3 c t hc ih =>
    intro c' hc'
    have hc2 : p c = false := by simpa using hc
    rw [show collapseRunsAux p rep true (c :: t)
        = c :: collapseRunsAux p rep false t by simp [collapseRunsAux, hc2]] at hc'
    rcases List.mem_cons.mp hc' with rfl | hc'
    · exact Or.inr (by simp)
    · rcases ih c' hc' with h | h
      · exact Or.inl h
      · exact Or.inr (by simp [h])
  | case4 c =>
    intro c' hc'
    simp [collapseRunsAux] at hc'
    exact Or.inr (by simp [hc'])
  | case5 c d tail hcd ih =>
    intro c' hc'
    rw [show collapseRunsAux p rep false (c :: d :: tail)
        = rep :: collapseRunsAux p rep true (d :: tail) by
      simp [collapseRunsAux, hcd]] at hc'
    rcases List.mem_cons.mp hc' with rfl | hc'
    · exact Or.inl rfl
    · rcases ih c' hc' with h | h
      · exact Or.inl h
      · exact Or.inr (by simp [List.mem_cons.mp h, or_assoc])
  | case6 c d tail hcd ih =>
    intro c' hc'
    rw [show collapseRunsAux p rep false (c :: d :: tail)
        = c :: collapseRunsAux p rep false (d :: tail) by
      simp [collapseRunsAux, hcd]] at hc'
    rcases List.mem_cons.mp hc' with rfl | hc'
    · exact Or.inr (by simp)
    · rcases ih c' hc' with h | h
      · exact Or.inl h
      · exact Or.inr (by simp [List.mem_cons.mp h, or_assoc])

theorem cr_chain_self (p : Char → Bool) (rep : Char) :
    ∀ (flag : Bool) (l : List Char), noTwo p (collapseRunsAux p rep flag l) := by
  intro flag l
  induction flag, l using collapseRunsAux.induct p rep with
  | case1 fl => simp [collapseRunsAux, noTwo]
  | case2 c t hc ih =>
    rwa [show collapseRunsAux p rep true (c :: t) = collapseRunsAux p rep true t by
      simp [collapseRunsAux, hc]]
  | case3 c t hc ih =>
    have hc2 : p c = false := by simpa using hc
    rw [show collapseRunsAux p rep true (c :: t)
        = c :: collapseRunsAux p rep false t by simp [collapseRunsAux, hc2]]
    unfold noTwo at ih ⊢
    rw [List.chain'_cons']
    refine ⟨fun y _ => by simp [hc2], ih⟩
  | case4 c => simp [collapseRunsAux, noTwo]
  | case5 c d tail hcd ih =>
    rw [show collapseRunsAux p rep false (c :: d :: tail)
        = rep :: collapseRunsAux p rep true (d :: tail) by
      simp [collapseRunsAux, hcd]]
    unfold noTwo at ih ⊢
    rw [List.chain'_cons']
    refine ⟨?_, ih⟩
    intro y hy
    rw [cr_true_eq p rep (d :: tail)] at hy
    rcases cr_false_head_cases p rep ((d :: tail).dropWhile p) with hh | hh | hh
    · rw [hh] at hy
      simp at hy
    · obtain ⟨t', _, a, b, t2, hab, hpab⟩ := hh
      have : p a = false := by
        have := List.head?_dropWhile_not p (d :: tail)
        rw [hab] at this
        simpa using this
      rw [this] at hpab
      simp at hpab
    · obtain ⟨c2, t', heq, hhd⟩ := hh
      rw [heq] at hy
      simp only [List.head?_cons, Option.mem_def, Option.some.injEq] at hy
      subst hy
      have hc2 : p c2 = false := by
        rcases hx : ((d :: tail).dropWhile p) with _ | ⟨x, xs⟩
        · rw [hx] at hhd
          simp at hhd
        · rw [hx] at hhd
          simp only [List.head?_cons, Option.some.injEq] at hhd
          subst hhd
          exact dropWhile_head_not hx
      simp [hc2]
  | case6 c d tail hcd ih =>
    rw [show collapseRunsAux p rep false (c :: d :: tail)
        = c :: collapseRunsAux p rep false (d :: tail) by
      simp [collapseRunsAux, hcd]]
    unfold noTwo at ih ⊢
    rw [List.chain'_cons']
    refine ⟨?_, ih⟩
    intro y hy
    rcases cr_false_head_cases p rep (d :: tail) with hh | hh | hh
    · rw [hh] at hy
      simp at hy
    · obtain ⟨t', heq, a, b, t2, hab, hpab⟩ := hh
      rw [heq] at hy
      simp only [List.head?_cons, Option.mem_def, Option.some.injEq] at hy
      subst hy
      simp only [Bool.and_eq_true] at hpab
      obtain ⟨hda, _⟩ := List.cons_eq_cons.mp hab
      have hpd : p d = true := by
        rw [hda]
        exact hpab.1
      have hpc : p c = false := by
        by_cases hx : p c = true
        · exact absurd (by simp [hx, hpd]) hcd
        · simpa using hx
      simp [hpc]
    · obtain ⟨c2, t', heq, hhd⟩ := hh
      rw [heq] at hy
      simp only [List.head?_cons, Option.mem_def, Option.some.injEq] at hy
      subst hy
      simp only [List.head?_cons, Option.some.injEq] at hhd
      subst hhd
      intro hcon
      exact hcd (by simp [hcon.1, hcon.2])

theorem cr_chain_preserve (p : Char → Bool) (rep : Char) (q : Char → Bool)
    (hrep : q rep = false) :
    ∀ (flag : Bool) (l : List Char), noTwo q l →
      noTwo q (collapseRunsAux p rep flag l) := by
  intro flag l
  induction flag, l using collapseRunsAux.induct p rep with
  | case1 fl => intro _; simp [collapseRunsAux, noTwo]
  | case2 c t hc ih =>
    intro h
    rw [show collapseRunsAux p rep true (c :: t) = collapseRunsAux p rep true t by
      simp [collapseRunsAux, hc]]
    exact ih h.tail
  | case3 c t hc ih =>
    intro h
    have hc2 : p c = false := by simpa using hc
    rw [show collapseRunsAux p rep true (c :: t)
        = c :: collapseRunsAux p rep false t by simp [collapseRunsAux, hc2]]
    unfold noTwo at h ih ⊢
    rw [List.chain'_cons']
    refine ⟨?_, ih h.tail⟩
    intro y hy
    rcases cr_false_head_cases p rep t with hh | hh | hh
    · rw [hh] at hy
      simp at hy
    · obtain ⟨t', heq, _⟩ := hh
      rw [heq] at hy
      simp only [List.head?_cons, Option.mem_def, Option.some.injEq] at hy
      subst hy
      simp [hrep]
    · obtain ⟨c2, t', heq, hhd⟩ := hh
      rw [heq] at hy
      simp only [List.head?_cons, Option.mem_def, Option.some.injEq] at hy
      subst hy
      exact (List.chain'_cons'.mp h).1 c2 hhd
  | case4 c => intro _; simp [collapseRunsAux, noTwo]
  | case5 c d tail hcd ih =>
    intro h
    rw [show collapseRunsAux p rep false (c :: d :: tail)
        = rep :: collapseRunsAux p rep true (d :: tail) by
      simp [collapseRunsAux, hcd]]
    unfold noTwo at h ih ⊢
    rw [List.chain'_cons']
    refine ⟨fun y _ => by simp [hrep], ih h.tail⟩
  | case6 c d tail hcd ih =>
    intro h
    rw [show collapseRunsAux p rep false (c :: d :: tail)
        = c :: collapseRunsAux p rep false (d :: tail) by
      simp [collapseRunsAux, hcd]]
    unfold noTwo at h ih ⊢
    rw [List.chain'_cons']
    refine ⟨?_, ih h.tail⟩
    intro y hy
    rcases cr_false_head_cases p rep (d :: tail) with hh | hh | hh
    · rw [hh] at hy
      simp at hy
    · obtain ⟨t', heq, _⟩ := hh
      rw [heq] at hy
      simp only [List.head?_cons, Option.mem_def, Option.some.injEq] at hy
      subst hy
      simp [hrep]
    · obtain ⟨c2, t', heq, hhd⟩ := hh
      rw [heq] at hy
      simp only [List.head?_cons, Option.mem_def, Option.some.injEq] at hy
      subst hy
      simp only [List.head?_cons, Option.some.injEq] at hhd
      subst hhd
      exact (List.chain'_cons.mp h).1

theorem cr_eq_self (p : Char → Bool) (rep : Char) :
    ∀ (l : List Char), noTwo p l → collapseRuns p rep l = l := by
  intro l
  induction l with
  | nil => intro _; rfl
  | cons c t ih =>
    intro h
    cases t with
    | nil => rfl
    | cons d t2 =>
      have hrel : ¬ (p c = true ∧ p d = true) := (List.chain'_cons.mp h).1
      have hcd : (p c && p d) = false := by
        by_cases hc : p c = true
        · by_cases hd : p d = true
          · exact absurd ⟨hc, hd⟩ hrel
          · simp [hd]
        · simp [Bool.eq_false_iff.mpr hc]
      unfold collapseRuns at ih ⊢
      rw [show collapseRunsAux p rep false (c :: d :: t2)
          = c :: collapseRunsAux p rep false (d :: t2) by
        simp [collapseRunsAux, hcd]]
      rw [ih (List.chain'_cons.mp h).2]

/-- C3.  The claim as stated is false: boilerplate removal runs after
whitespace collapsing, so deleting a denylist phrase can leave a doubled
space (and can even splice a new phrase together), which only a second pass
collapses — `normalize("a Subscribe b") = "a  b"` but
`normalize(normalize("a Subscribe b")) = "a b"` (see the counterexample).
Amended claim, proved here: the normalizer is idempotent on every input on
which the two removal passes — boilerplate stripping and the (mangled)
quote substitution — remove nothing, at both the first and the second
application; all the remaining steps (whitespace collapsing, dash
normalization, punctuation-run collapsing, paragraph collapsing, stripping)
are idempotent in combination. -/
theorem C3_normalizer_idempotent_amended :
    ∀ (x : List Char),
      removeUnwanted (collapseWs x) = collapseWs x →
      weirdSubst (collapseWs x) = collapseWs x →
      removeUnwanted (clean_text x) = clean_text x →
      weirdSubst (clean_text x) = clean_text x →
      clean_text (clean_text x) = clean_text x := by
  intro x h1 h2 h3 h4
  by_cases hx : x = []
  · subst hx
    rfl
  · -- names for the stages of the first pass
    set cw := collapseWs x with hcw
    set z0 := normalizeDashes cw with hz0
    set z1 := collapseRuns isP1 '.' z0 with hz1
    set z2 := collapseRuns isP2 ',' z1 with hz2
    -- structural facts about the stages
    have cw_chain : noTwo isWs cw := collapseWs_noTwo x
    have cw_space : wsOnlySpace cw := collapseWs_space x
    have cw_nl : '\n' ∉ cw := by
      intro hm
      rcases collapseWs_mem x _ hm with h | ⟨_, hw⟩
      · simp at h
      · simp [isWs] at hw
    have z0_mem : ∀ c ∈ z0, c = '-' ∨ c ∈ cw := by
      intro c hc
      rcases replaceChar_mem '—' '-' _ c hc with h | ⟨hc2, _⟩
      · exact Or.inl h
      · rcases replaceChar_mem '–' '-' _ c hc2 with h | ⟨hc3, _⟩
        · exact Or.inl h
        · exact Or.inr hc3
    have z0_chain : noTwo isWs z0 := by
      rw [hz0]
      unfold normalizeDashes
      exact replaceChar_chain _ _ _ isWs (by decide)
        (replaceChar_chain _ _ _ isWs (by decide) cw_chain)
    have z0_space : wsOnlySpace z0 := by
      intro c hc hw
      rcases z0_mem c hc with rfl | h
      · simp [isWs] at hw
      · exact cw_space c h hw
    have z0_nl : '\n' ∉ z0 := by
      intro hm
      rcases z0_mem _ hm with h | h
      · simp at h
      · exact cw_nl h
    have z0_nd1 : '–' ∉ z0 := by
      intro hm
      rcases replaceChar_mem '—' '-' _ _ hm with h | ⟨hc2, _⟩
      · simp at h
      · exact replaceChar_not_mem '–' '-' cw (by decide) hc2
    have z0_nd2 : '—' ∉ z0 := replaceChar_not_mem '—' '-' _ (by decide)
    have z1_mem : ∀ c ∈ z1, c = '.' ∨ c ∈ z0 := fun c hc => cr_mem isP1 '.' false z0 c hc
    have z2_mem : ∀ c ∈ z2, c = ',' ∨ c ∈ z1 := fun c hc => cr_mem isP2 ',' false z1 c hc
    have z2_nl : '\n' ∉ z2 := by
      intro hm
      rcases z2_mem _ hm with h | h
      · simp at h
      · rcases z1_mem _ h with h' | h'
        · simp at h'
        · exact z0_nl h'
    -- the first-pass output
    set y := strip z2 with hy
    have hclean : clean_text x = y := by
      unfold clean_text
      rw [if_neg (by simp [hx])]
      unfold cleanTail
      rw [← hcw, h1, dqSubst_eq, h2, ← hz0, ← hz1, ← hz2,
        paraCollapse_eq_of_noNl z2 z2_nl]
    -- structural facts about the output
    have y_sub : ∀ c ∈ y, c ∈ z2 := fun c hc => (strip_sublist z2).subset hc
    have y_chain_ws : noTwo isWs y :=
      List.Chain'.infix
        (cr_chain_preserve isP2 ',' isWs (by decide) false z1
          (cr_chain_preserve isP1 '.' isWs (by decide) false z0 z0_chain))
        (strip_isInfixOf z2)
    have y_space : wsOnlySpace y := by
      intro c hc hw
      rcases z2_mem c (y_sub c hc) with rfl | h
      · simp [isWs] at hw
      · rcases z1_mem c h with rfl | h'
        · simp [isWs] at hw
        · exact z0_space c h' hw
    have y_chain_p1 : noTwo isP1 y :=
      List.Chain'.infix
        (cr_chain_preserve isP2 ',' isP1 (by decide) false z1
          (cr_chain_self isP1 '.' false z0))
        (strip_isInfixOf z2)
    have y_chain_p2 : noTwo isP2 y :=
      List.Chain'.infix (cr_chain_self isP2 ',' false z1) (strip_isInfixOf z2)
    have y_nl : '\n' ∉ y := fun hm => z2_nl (y_sub _ hm)
    have y_nd1 : '–' ∉ y := by
      intro hm
      rcases z2_mem _ (y_sub _ hm) with h | h
      · simp at h
      · rcases z1_mem _ h with h' | h'
        · simp at h'
        · exact z0_nd1 h'
    have y_nd2 : '—' ∉ y := by
      intro hm
      rcases z2_mem _ (y_sub _ hm) with h | h
      · simp at h
      · rcases z1_mem _ h with h' | h'
        · simp at h'
        · exact z0_nd2 h'
    -- the second pass is the identity on the output
    rw [hclean] at h3 h4 ⊢
    by_cases hynil : y = []
    · rw [hynil]
      rfl
    · unfold clean_text
      rw [if_neg (by simp [hynil])]
      rw [collapseWs_eq_self y y_chain_ws y_space]
      unfold cleanTail
      rw [h3, dqSubst_eq, h4]
      unfold normalizeDashes
      rw [replaceChar_id '–' '-' y y_nd1, replaceChar_id '—' '-' y y_nd2]
      rw [cr_eq_self isP1 '.' y y_chain_p1, cr_eq_self isP2 ',' y y_chain_p2]
      rw [paraCollapse_eq_of_noNl y y_nl]
      rw [hy]
      exact strip_strip z2

/-- C3 counterexample: removing `"Subscribe"` from the already
whitespace-collapsed `"a Subscribe b"` leaves the doubled space of
`"a  b"`, which only the second application collapses, so
`normalize(normalize(x)) ≠ normalize(x)`. -/
theorem C3_normalizer_idempotent_counterexample :
    clean_text "a Subscribe b".data = "a  b".data
    ∧ clean_text "a  b".data = "a b".data
    ∧ ("a b".data == "a  b".data) = false := by
  refine ⟨by decide, by decide, by decide⟩

/-- C3 witness: on an input free of denylist phrases the amended idempotence
applies. -/
theorem C3_normalizer_idempotent_witness :
    clean_text (clean_text "Hello  world.".data) = clean_text "Hello  world.".data :=
  C3_normalizer_idempotent_amended "Hello  world.".data
    (by decide) (by decide) (by decide) (by decide)

end ResearchAssistant
